import Mathlib

/-!
Verification of the tax-scan invoice pipeline (src/extract-invoices.ts).

The development shallowly embeds the pipeline: JavaScript strings become
`List Char` / `String`, JavaScript numbers become `ℚ` (exact rational
arithmetic idealises IEEE doubles; none of the verified properties depend
on float rounding), the SQLite table becomes a list of rows, and the
external collaborators (pdf text extraction, the language-model call, the
exchange-rate service) become explicit per-file inputs.  `JSON.parse` is
modelled by an executable recursive-descent function over the JSON
grammar (numbers read as exact rationals, `\u` escapes limited to unicode
scalar values).  The SHA-256 content digest is idealised as an injective
function of the byte list.
-/

namespace TaxScan

/-- The four whitespace characters accepted by the JSON grammar
(space, tab, line feed, carriage return) — the characters `JSON.parse`
skips around tokens. -/
def jsonWsChar (c : Char) : Bool :=
  c == ' ' || c == '\t' || c == '\n' || c == '\r'

/-- Code points treated as whitespace by JavaScript
`String.prototype.trim` (ECMAScript WhiteSpace and LineTerminator).
Strictly larger than the JSON whitespace set: it also holds NBSP
(160), the Zs spaces, and the line/paragraph separators. -/
def jsWsCodes : List Nat :=
  [9, 10, 11, 12, 13, 32, 160, 5760, 8192, 8193, 8194, 8195, 8196, 8197,
   8198, 8199, 8200, 8201, 8202, 8232, 8233, 8239, 8287, 12288, 65279]

/-- Whitespace per JavaScript `trim`. -/
def jsWsChar (c : Char) : Bool := decide (c.toNat ∈ jsWsCodes)

/-- Skip leading JSON whitespace. -/
def skipWs (s : List Char) : List Char := s.dropWhile jsonWsChar

/-- JavaScript `String.prototype.trim`: drop JS whitespace from both ends. -/
def jsTrim (s : List Char) : List Char :=
  ((s.dropWhile jsWsChar).reverse.dropWhile jsWsChar).reverse

/-- The backtick character. -/
def tick : Char := Char.ofNat 96

/-- One pass of `content.replace(/```json|```/g, "")`, with fuel: at
each position remove a literal triple backtick followed by `json`
(preferred), or a bare triple backtick, otherwise keep the character
and move on.  Every step consumes at least one character and one unit
of fuel, so any fuel at least the input length gives the full
replacement. -/
def stripFencesF : Nat → List Char → List Char
  | 0, _ => []
  | _, [] => []
  | Nat.succ fuel, a :: rest =>
    if a = tick then
      match rest with
      | b :: c :: rest2 =>
        if b = tick ∧ c = tick then
          match rest2 with
          | j :: s :: o :: n :: rest3 =>
            if j = 'j' ∧ s = 's' ∧ o = 'o' ∧ n = 'n' then stripFencesF fuel rest3
            else stripFencesF fuel rest2
          | _ => stripFencesF fuel rest2
        else a :: stripFencesF fuel rest
      | _ => a :: stripFencesF fuel rest
    else a :: stripFencesF fuel rest

/-- `content.replace(/```json|```/g, "")` from the driver. -/
def stripFences (s : List Char) : List Char := stripFencesF s.length s

/-- JSON values.  Numbers are exact rationals (idealising the IEEE
doubles `JSON.parse` would produce). -/
inductive Json where
  | str (s : List Char)
  | num (q : ℚ)
  | bool (b : Bool)
  | null
  | arr (vs : List Json)
  | obj (ms : List (List Char × Json))

/-- Decimal digit test on the code point. -/
def isDigitChar (c : Char) : Bool := 48 ≤ c.toNat && c.toNat ≤ 57

/-- Value of a hexadecimal digit. -/
def hexVal (c : Char) : Option Nat :=
  if 48 ≤ c.toNat ∧ c.toNat ≤ 57 then some (c.toNat - 48)
  else if 97 ≤ c.toNat ∧ c.toNat ≤ 102 then some (c.toNat - 87)
  else if 65 ≤ c.toNat ∧ c.toNat ≤ 70 then some (c.toNat - 55)
  else none

/-- Single-character JSON string escapes. -/
def escChar (c : Char) : Option Char :=
  if c = '"' then some '"'
  else if c = '\\' then some '\\'
  else if c = '/' then some '/'
  else if c = 'b' then some (Char.ofNat 8)
  else if c = 'f' then some (Char.ofNat 12)
  else if c = 'n' then some '\n'
  else if c = 'r' then some '\r'
  else if c = 't' then some '\t'
  else none

/-- Parse the body of a JSON string, positioned just after the opening
quote; returns the decoded characters and the input after the closing
quote.  Raw control characters are rejected, `\u` escapes must denote
unicode scalar values. -/
def parseStrBody : List Char → Option (List Char × List Char)
  | [] => none
  | c :: rest =>
    if c = '"' then some ([], rest)
    else if c = '\\' then
      match rest with
      | [] => none
      | e :: rest2 =>
        if e = 'u' then
          match rest2 with
          | a :: b :: c2 :: d :: rest3 =>
            match hexVal a, hexVal b, hexVal c2, hexVal d with
            | some ha, some hb, some hc, some hd =>
              let n := ((ha * 16 + hb) * 16 + hc) * 16 + hd
              if n < 55296 ∨ 57344 ≤ n then
                match parseStrBody rest3 with
                | some (cs, r) => some (Char.ofNat n :: cs, r)
                | none => none
              else none
            | _, _, _, _ => none
          | _ => none
        else
          match escChar e with
          | some ch =>
            match parseStrBody rest2 with
            | some (cs, r) => some (ch :: cs, r)
            | none => none
          | none => none
    else if c.toNat < 32 then none
    else
      match parseStrBody rest with
      | some (cs, r) => some (c :: cs, r)
      | none => none

/-- Numeric value of a digit string. -/
def natOfDigits (ds : List Char) : Nat :=
  ds.foldl (fun a c => a * 10 + (c.toNat - 48)) 0

/-- One or more decimal digits. -/
def parseDigits (s : List Char) : Option (List Char × List Char) :=
  let ds := s.takeWhile isDigitChar
  if ds.isEmpty then none else some (ds, s.dropWhile isDigitChar)

/-- Integer part of a JSON number: a single `0`, or a nonzero digit
followed by digits. -/
def parseIntPart : List Char → Option (Nat × List Char)
  | c :: t =>
    if c = '0' then some (0, t)
    else
      match parseDigits (c :: t) with
      | some (ds, r) => some (natOfDigits ds, r)
      | none => none
  | [] => none

/-- Optional fraction part of a JSON number. -/
def parseFracPart : List Char → Option (ℚ × List Char)
  | c :: t =>
    if c = '.' then
      match parseDigits t with
      | some (ds, r) => some ((natOfDigits ds : ℚ) / (10 : ℚ) ^ ds.length, r)
      | none => none
    else some (0, c :: t)
  | [] => some (0, [])

/-- Signed exponent digits. -/
def parseExpDigits (sg : Int) (s : List Char) : Option (Int × List Char) :=
  match parseDigits s with
  | some (ds, r) => some (sg * (natOfDigits ds : Int), r)
  | none => none

/-- Optional exponent part of a JSON number. -/
def parseExpPart : List Char → Option (Int × List Char)
  | c :: t =>
    if c = 'e' ∨ c = 'E' then
      match t with
      | x :: u =>
        if x = '+' then parseExpDigits 1 u
        else if x = '-' then parseExpDigits (-1) u
        else parseExpDigits 1 (x :: u)
      | [] => parseExpDigits 1 []
    else some (0, c :: t)
  | [] => some (0, [])

/-- Integer power of ten as a rational. -/
def qpow10 (e : Int) : ℚ :=
  if 0 ≤ e then (10 : ℚ) ^ e.toNat else 1 / (10 : ℚ) ^ (-e).toNat

/-- The unsigned part of a JSON number: integer part, optional
fraction, optional exponent. -/
def parseNumBody (s : List Char) : Option (ℚ × List Char) :=
  match parseIntPart s with
  | none => none
  | some (ip, s2) =>
    match parseFracPart s2 with
    | none => none
    | some (fp, s3) =>
      match parseExpPart s3 with
      | none => none
      | some (ex, s4) => some (((ip : ℚ) + fp) * qpow10 ex, s4)

/-- A JSON number as an exact rational: optional minus sign, then the
unsigned body. -/
def parseNumber : List Char → Option (ℚ × List Char)
  | c :: t =>
    if c = '-' then
      match parseNumBody t with
      | some (q, r) => some (-q, r)
      | none => none
    else parseNumBody (c :: t)
  | [] => none

mutual

/-- Parse one JSON value; the returned rest has trailing JSON
whitespace already skipped (lexing convention). -/
def parseVal : Nat → List Char → Option (Json × List Char)
  | 0, _ => none
  | Nat.succ fuel, s =>
    match s with
    | [] => none
    | c :: t =>
      if c = '"' then
        match parseStrBody t with
        | some (cs, r) => some (Json.str cs, skipWs r)
        | none => none
      else if c = '{' then
        match parseObjRest fuel (skipWs t) with
        | some (ms, r) => some (Json.obj ms, r)
        | none => none
      else if c = '[' then
        match parseArrRest fuel (skipWs t) with
        | some (vs, r) => some (Json.arr vs, r)
        | none => none
      else if ("true".toList).isPrefixOf s then some (Json.bool true, skipWs (s.drop 4))
      else if ("false".toList).isPrefixOf s then some (Json.bool false, skipWs (s.drop 5))
      else if ("null".toList).isPrefixOf s then some (Json.null, skipWs (s.drop 4))
      else
        match parseNumber s with
        | some (q, r) => some (Json.num q, skipWs r)
        | none => none

/-- After `[` (whitespace skipped): elements then `]`. -/
def parseArrRest : Nat → List Char → Option (List Json × List Char)
  | 0, _ => none
  | Nat.succ fuel, s =>
    match s with
    | c :: t =>
      if c = ']' then some ([], skipWs t)
      else
        match parseVal fuel (c :: t) with
        | some (v, r) =>
          match parseArrTail fuel r with
          | some (vs, r2) => some (v :: vs, r2)
          | none => none
        | none => none
    | [] => none

/-- After an array element: `,` and a further element, or `]`. -/
def parseArrTail : Nat → List Char → Option (List Json × List Char)
  | 0, _ => none
  | Nat.succ fuel, s =>
    match s with
    | c :: t =>
      if c = ']' then some ([], skipWs t)
      else if c = ',' then
        match parseVal fuel (skipWs t) with
        | some (v, r) =>
          match parseArrTail fuel r with
          | some (vs, r2) => some (v :: vs, r2)
          | none => none
        | none => none
      else none
    | [] => none

/-- After `{` (whitespace skipped): members then `}`. -/
def parseObjRest : Nat → List Char → Option (List (List Char × Json) × List Char)
  | 0, _ => none
  | Nat.succ fuel, s =>
    match s with
    | c :: t =>
      if c = '}' then some ([], skipWs t)
      else if c = '"' then
        match parseStrBody t with
        | some (k, r) =>
          match skipWs r with
          | c2 :: r2 =>
            if c2 = ':' then
              match parseVal fuel (skipWs r2) with
              | some (v, r3) =>
                match parseObjTail fuel r3 with
                | some (ms, r4) => some ((k, v) :: ms, r4)
                | none => none
              | none => none
            else none
          | [] => none
        | none => none
      else none
    | [] => none

/-- After an object member: `,` and a further member, or `}`. -/
def parseObjTail : Nat → List Char → Option (List (List Char × Json) × List Char)
  | 0, _ => none
  | Nat.succ fuel, s =>
    match s with
    | c :: t =>
      if c = '}' then some ([], skipWs t)
      else if c = ',' then
        match skipWs t with
        | c2 :: t2 =>
          if c2 = '"' then
            match parseStrBody t2 with
            | some (k, r) =>
              match skipWs r with
              | c3 :: r2 =>
                if c3 = ':' then
                  match parseVal fuel (skipWs r2) with
                  | some (v, r3) =>
                    match parseObjTail fuel r3 with
                    | some (ms, r4) => some ((k, v) :: ms, r4)
                    | none => none
                  | none => none
                else none
              | [] => none
            | none => none
          else none
        | [] => none
      else none
    | [] => none

end

/-- Model of `JSON.parse`: leading whitespace skipped, exactly one value,
only whitespace after it (the lexing convention already consumed it, so
success means the rest is empty). -/
def jsonParse (s : List Char) : Option Json :=
  match parseVal (2 * s.length + 1) (skipWs s) with
  | some (v, r) => if r.isEmpty then some v else none
  | none => none

/-- The record shape demanded by `InvoiceSchema` (zod): five required
fields; `z.string()` accepts any string, `z.number()` any number, and
unknown keys are ignored. -/
structure Invoice where
  invoiceNumber : String
  date : String
  vendorName : String
  totalAmount : ℚ
  currency : String
deriving DecidableEq, Repr

/-- Property lookup on an object produced by `JSON.parse`: with duplicate
keys the later member wins (later assignments overwrite). -/
def jLookup (k : List Char) : List (List Char × Json) → Option Json
  | [] => none
  | m :: rest =>
    match jLookup k rest with
    | some v => some v
    | none => if m.1 = k then some m.2 else none

/-- A JSON value usable as a zod string field. -/
def asStr : Json → Option String
  | Json.str cs => some (String.mk cs)
  | _ => none

/-- A JSON value usable as a zod number field. -/
def asNum : Json → Option ℚ
  | Json.num q => some q
  | _ => none

/-- `InvoiceSchema.parse` on a decoded JSON value. -/
def toInvoice : Json → Option Invoice
  | Json.obj ms => do
    let n ← jLookup ("invoiceNumber".toList) ms >>= asStr
    let dt ← jLookup ("date".toList) ms >>= asStr
    let vn ← jLookup ("vendorName".toList) ms >>= asStr
    let ta ← jLookup ("totalAmount".toList) ms >>= asNum
    let cu ← jLookup ("currency".toList) ms >>= asStr
    pure ⟨n, dt, vn, ta, cu⟩
  | _ => none

/-- `InvoiceSchema.parse(JSON.parse(s))`. -/
def parseInvoice (s : List Char) : Option Invoice :=
  (jsonParse s).bind toInvoice

/-! ## Dates and the UK tax year -/

/-- Leap year in the proleptic Gregorian calendar. -/
def isLeapYear (y : Nat) : Bool :=
  (y % 4 == 0 && y % 100 != 0) || (y % 400 == 0)

/-- Days in a month. -/
def daysInMonth (y m : Nat) : Nat :=
  if m = 2 then (if isLeapYear y then 29 else 28)
  else if m = 4 ∨ m = 6 ∨ m = 9 ∨ m = 11 then 30
  else 31

/-- Two-digit number. -/
def twoDigits (a b : Char) : Nat := (a.toNat - 48) * 10 + (b.toNat - 48)

/-- Parse a date string of the exact shape `YYYY-MM-DD` with valid
month and day, the format the schema instructs the model to emit.
`new Date(s)` parses such strings as UTC midnight and yields an Invalid
Date when a component is out of range; other, engine-specific input
shapes are outside this model. -/
def parseYMD (s : String) : Option (Nat × Nat × Nat) :=
  match s.toList with
  | [y1, y2, y3, y4, h1, m1, m2, h2, d1, d2] =>
    if isDigitChar y1 && isDigitChar y2 && isDigitChar y3 && isDigitChar y4 && h1 == '-' &&
        isDigitChar m1 && isDigitChar m2 && h2 == '-' && isDigitChar d1 && isDigitChar d2 then
      let y := twoDigits y1 y2 * 100 + twoDigits y3 y4
      let m := twoDigits m1 m2
      let d := twoDigits d1 d2
      if 1 ≤ m ∧ m ≤ 12 ∧ 1 ≤ d ∧ d ≤ daysInMonth y m then some (y, m, d) else none
    else none
  | _ => none

/-- Zero-padded two-digit rendering. -/
def pad2 (n : Nat) : String := if n < 10 then "0" ++ toString n else toString n

/-- Zero-padded four-digit rendering. -/
def pad4 (n : Nat) : String :=
  if n < 10 then "000" ++ toString n
  else if n < 100 then "00" ++ toString n
  else if n < 1000 then "0" ++ toString n
  else toString n

/-- ISO rendering `YYYY-MM-DD`. -/
def renderYMD (y m d : Nat) : String := pad4 y ++ "-" ++ pad2 m ++ "-" ++ pad2 d

/-- `formatDate` from the source: re-render a parseable date as
`YYYY-MM-DD` (via `toISOString`), return the input unchanged when
`new Date` yields an Invalid Date. -/
def formatDate (s : String) : String :=
  match parseYMD s with
  | none => s
  | some (y, m, d) => renderYMD y m d

/-- The comparison `date >= new Date(year, 3, 6)` from `calculateTaxYear`,
where `date` is the UTC-midnight instant `new Date(dateStr)` read from a
`YYYY-MM-DD` string with components `(y, m, d)` and `year = y` is what
`getFullYear` returned.  `new Date(year, 3, 6)` applies the ECMAScript
MakeFullYear step, reading a year argument 0 to 99 as 1900 + year, and
denotes local midnight of April 6 of that year in the program's
Europe/London environment (IANA tzdata: local mean time, 1 minute
15 seconds behind UTC, until December 1847; GMT with summer time rules
afterwards, always 0 to 2 hours ahead of UTC in April).  Hence three
regimes: a year 0 to 99 lies centuries before its 19xx boundary, so the
comparison is false for the whole year; through 1847 the boundary
instant sits 75 seconds after UTC midnight of April 6, so April 6
itself still compares below it and the test is `(m, d) ≥ (4, 7)`; from
1848 on the boundary lies within `(April 5, April 6]` in UTC, giving
the plain calendar test `(m, d) ≥ (4, 6)`. -/
def taxYearStartReached (y m d : Nat) : Bool :=
  if y ≤ 99 then false
  else if y ≤ 1847 then decide (4 < m ∨ (m = 4 ∧ 7 ≤ d))
  else decide (4 < m ∨ (m = 4 ∧ 6 ≤ d))

/-- `calculateTaxYear` from the source: UK tax year with boundary
April 6, via the comparison `date >= new Date(year, 3, 6)` embedded as
`taxYearStartReached`.  Unparseable dates give `"Unknown"`. -/
def calculateTaxYear (s : String) : String :=
  match parseYMD s with
  | none => "Unknown"
  | some (y, m, d) =>
    let yi : Int := y
    if taxYearStartReached y m d then toString yi ++ "-" ++ toString (yi + 1)
    else toString (yi - 1) ++ "-" ++ toString yi

/-! ## Currency and rounding -/

/-- ASCII uppercase, modelling `toUpperCase` on currency codes. -/
def strUpper (s : String) : String := String.mk (s.toList.map Char.toUpper)

/-- What the exchange-rate service did for this file's lookup:
a response holding a GBP rate, a response without one
(`data.rates?.GBP` is undefined), or a thrown fetch/decode error. -/
inductive RateResult where
  | ok (q : ℚ)
  | missing
  | fetchFailed
deriving DecidableEq, Repr

/-- `getExchangeRateToGBP` from the source: for GBP (case-insensitively)
return 1.0 immediately with no network call; otherwise the fetched
`data.rates?.GBP` (`none` both for a missing rate and for a caught
network error, which the source signals as undefined and null). -/
def getExchangeRateToGBP (currency : String) (r : RateResult) : Option ℚ :=
  if strUpper currency = "GBP" then some 1
  else
    match r with
    | RateResult.ok q => some q
    | RateResult.missing => none
    | RateResult.fetchFailed => none

/-- Whether `getExchangeRateToGBP` reaches its `fetch` call: exactly when
the currency is not GBP. -/
def rateFetchCalled (currency : String) : Bool :=
  !(strUpper currency = "GBP" : Bool)

/-- `Number(x.toFixed(2))`: round to 2 decimal places, ties away from
zero (the `toFixed` rule: take the absolute value, pick the closest
hundredth, on a tie the larger). -/
def round2 (q : ℚ) : ℚ :=
  (if q < 0 then (-1 : ℚ) else 1) * ((((|q| * 100 + 1 / 2).floor : ℤ) : ℚ) / 100)

/-! ## Ledger rows and the per-file pipeline -/

/-- One row of the `processed_invoices` table (the autoincrement id and
the `processed_at` timestamp default are not modelled; no claim touches
them). -/
structure Row where
  file_hash : List Nat
  file_path : String
  vendor : String
  invoice_num : String
  date : String
  tax_year : String
  category : String
  currency : String
  total_original : ℚ
  exchange_rate : ℚ
  total_gbp : ℚ
deriving DecidableEq, Repr

/-- The SHA-256 content digest, idealised as the byte content itself:
deterministic and collision-free, which is the design assumption the
dedup key rests on. -/
def fileHash (bytes : List Nat) : List Nat := bytes

/-- `SELECT id FROM processed_invoices WHERE file_hash = ?` returned a
row. -/
def hashPresent (L : List Row) (h : List Nat) : Bool :=
  L.any (fun r => r.file_hash == h)

/-- Everything the environment decides about one scanned file: its path
and scanner category, its byte content, the text the pdf library
extracts (`none` models a read/parse throw), the language model's
response string (`none` models a thrown call), and the exchange-rate
service behaviour. -/
structure FileEnv where
  path : String
  category : String
  bytes : List Nat
  pdfText : Option String
  modelContent : Option String
  rate : RateResult

/-- Terminal state of one file in the batch driver. -/
inductive Outcome where
  | skipped
  | inserted (r : Row)
  | failed (msg : String)
deriving DecidableEq, Repr

/-- Result of the per-file loop body: the ledger afterwards, the file's
terminal state, and whether the language-model call and the rate fetch
were reached. -/
structure StepOut where
  ledger : List Row
  outcome : Outcome
  llmCalled : Bool
  rateFetched : Bool
deriving DecidableEq, Repr

/-- The row the driver inserts for a successfully extracted file
(the INSERT argument tuple): vendor, invoice number, amount and currency
from `rawInv`; date, tax year and the rate lookup from `inv`. -/
def mkRow (f : FileEnv) (rawInv inv : Invoice) : Row :=
  let rate := (getExchangeRateToGBP inv.currency f.rate).getD 1
  { file_hash := fileHash f.bytes
    file_path := f.path
    vendor := rawInv.vendorName
    invoice_num := rawInv.invoiceNumber
    date := formatDate inv.date
    tax_year := calculateTaxYear inv.date
    category := f.category
    currency := strUpper rawInv.currency
    total_original := rawInv.totalAmount
    exchange_rate := rate
    total_gbp := round2 (inv.totalAmount * rate) }

/-- The body of the driver loop in `runTaxAutomation` for one file:
dedup check, pdf text extraction, readable-text guard, model call,
the two schema parses (`rawInv` on the fence-stripped content, `inv` on
the fence-stripped and trimmed content), enrichment, insert.  Every
per-file throw becomes a `failed` outcome. -/
def processFile (L : List Row) (f : FileEnv) : StepOut :=
  if hashPresent L (fileHash f.bytes) then ⟨L, Outcome.skipped, false, false⟩
  else
    match f.pdfText with
    | none => ⟨L, Outcome.failed "file read or pdf parse error", false, false⟩
    | some text =>
      if text.toList = [] ∨ (jsTrim text.toList).length < 10 then
        ⟨L, Outcome.failed "PDF contains no readable text (it might be an image/scan).", false, false⟩
      else
        match f.modelContent with
        | none => ⟨L, Outcome.failed "model call failed", true, false⟩
        | some content =>
          match parseInvoice (stripFences content.toList) with
          | none => ⟨L, Outcome.failed "schema validation failed", true, false⟩
          | some rawInv =>
            match parseInvoice (jsTrim (stripFences content.toList)) with
            | none => ⟨L, Outcome.failed "schema validation failed", true, false⟩
            | some inv =>
              ⟨L ++ [mkRow f rawInv inv], Outcome.inserted (mkRow f rawInv inv), true,
                rateFetchCalled inv.currency⟩

/-- The notifications the driver sends (`osascript` calls). -/
inductive Notif where
  | logged (category vendor : String)
  | extractionError (file msg : String)
  | scanComplete (added errs : Nat)
deriving DecidableEq, Repr

/-- The driver loop over the scanned files, carrying the ledger, the
`newlyAdded` and `errors` counters and the notification log. -/
def runFiles (L : List Row) (added errs : Nat) (ns : List Notif) :
    List FileEnv → List Row × Nat × Nat × List Notif
  | [] => (L, added, errs, ns)
  | f :: fs =>
    let s := processFile L f
    match s.outcome with
    | Outcome.skipped => runFiles s.ledger added errs ns fs
    | Outcome.inserted r =>
      runFiles s.ledger (added + 1) errs (ns ++ [Notif.logged f.category r.vendor]) fs
    | Outcome.failed m =>
      runFiles s.ledger added (errs + 1) (ns ++ [Notif.extractionError f.path m]) fs

/-! ## CSV export -/

/-- The header line written by `exportToCSV`. -/
def csvHeader : String :=
  "Date,Category,Tax Year,Vendor,Invoice #,Original Amount,Currency,Rate,Total GBP\n"

/-- Rendering of a numeric column.  JavaScript float-to-string
formatting is not modelled; integers render exactly and no verified
property depends on the digits of a non-integral rendering. -/
def numStr (q : ℚ) : String := if q.den = 1 then toString q.num else toString q

/-- Quote-wrapped text column. -/
def quoted (s : String) : String := "\"" ++ s ++ "\""

/-- The column values of one exported line, in the order the source
template emits them: date first, then category, tax year, vendor,
invoice number, original amount, currency, rate, total GBP. -/
def csvFields (r : Row) : List String :=
  [r.date, quoted r.category, quoted r.tax_year, quoted r.vendor, r.invoice_num,
   numStr r.total_original, r.currency, numStr r.exchange_rate, numStr r.total_gbp]

/-- One exported line. -/
def csvLine (r : Row) : String := String.intercalate "," (csvFields r)

/-- `ORDER BY date DESC` modelled as a (stable) merge sort on the date
column, descending. -/
def sortByDateDesc (L : List Row) : List Row :=
  L.mergeSort (fun a b => decide (b.date ≤ a.date))

/-- `exportToCSV` from the source: nothing is written for an empty
ledger; otherwise the whole file content (header plus one line per row,
date-descending) is regenerated from the ledger alone and written with
`writeFileSync`, overwriting any previous file. -/
def exportToCSV (L : List Row) : Option String :=
  if L.isEmpty then none
  else some (csvHeader ++ String.intercalate "\n" ((sortByDateDesc L).map csvLine))

/-! ## Scanner categories and the whole run -/

/-- The category expression in `getInvoices`: case-insensitive substring
tests on the full path, income before expenditure, default `Other`. -/
def containsSub (needle : List Char) : List Char → Bool
  | [] => needle.isPrefixOf []
  | c :: t => needle.isPrefixOf (c :: t) || containsSub needle t

/-- Lowercased character list of a path (`toLowerCase`, ASCII). -/
def lowerChars (s : String) : List Char := s.toList.map Char.toLower

/-- Category inferred from a scanned path. -/
def categorize (fullPath : String) : String :=
  if containsSub ("income".toList) (lowerChars fullPath) then "Income"
  else if containsSub ("expenditure".toList) (lowerChars fullPath) then "Expenditure"
  else "Other"

/-- Result of the whole `runTaxAutomation` call. -/
structure BatchOut where
  ledger : List Row
  newlyAdded : Nat
  errors : Nat
  notifs : List Notif
  exported : Option String
deriving DecidableEq, Repr

/-- `runTaxAutomation` on an already-scanned file list: loop over the
files, then export the CSV if at least one record was added, then send
the summary notification. -/
def runTaxAutomation (L : List Row) (files : List FileEnv) : BatchOut :=
  let out := runFiles L 0 0 [] files
  { ledger := out.1
    newlyAdded := out.2.1
    errors := out.2.2.1
    notifs := out.2.2.2 ++ [Notif.scanComplete out.2.1 out.2.2.1]
    exported := if 0 < out.2.1 then exportToCSV out.1 else none }

/-! ## Derived notions used by the verified properties -/

/-- Appending a whitespace tail to the rest of an eagerly-skipped
parse: an empty rest stays empty, a nonempty rest carries the tail. -/
def addTail (w t : List Char) : List Char := if t = [] then [] else t ++ w

/-- The last meaningful character of a fully-consumed input: some char
that JavaScript trim would keep, followed only by JSON whitespace. -/
def goodEnd (x : List Char) : Prop :=
  ∃ y c z, x = y ++ [c] ++ z ∧ (∀ e ∈ z, jsonWsChar e = true) ∧ jsWsChar c = false

/-- The stored-row identity the design demands: the base amount is the
original amount times the stored rate, rounded to two decimals. -/
def rowConsistent (r : Row) : Prop :=
  r.total_gbp = round2 (r.total_original * r.exchange_rate)

/-- A file's intrinsic step result: what the loop body does when the
ledger holds nothing (so the dedup check cannot fire). -/
def stepFresh (f : FileEnv) : StepOut := processFile [] f

/-- Number of per-file failure notifications in a notification log. -/
def errNotifCount (ns : List Notif) : Nat :=
  (ns.filter fun n =>
    match n with
    | Notif.extractionError _ _ => true
    | _ => false).length

/-- The column order asserted by the specification (category first, the
date fifth).  Stated from the spec's words, for comparison with the
order the source actually emits (`csvFields`). -/
def specCsvFields (r : Row) : List String :=
  [quoted r.category, quoted r.tax_year, quoted r.vendor, r.invoice_num, r.date,
   numStr r.total_original, r.currency, numStr r.exchange_rate, numStr r.total_gbp]

/-! ## Concrete inputs used as witnesses and counterexamples -/

/-- A concrete ledger row with pairwise-distinct text fields. -/
def sampleRow : Row :=
  { file_hash := [1]
    file_path := "/root/Invoices/a.pdf"
    vendor := "Acme"
    invoice_num := "INV-7"
    date := "2023-04-06"
    tax_year := "2023-2024"
    category := "Expenditure"
    currency := "GBP"
    total_original := 10
    exchange_rate := 1
    total_gbp := 10 }

/-- A model response whose fence-stripped content is a schema-valid GBP
invoice. -/
def contentGBP : String :=
  "\x7b\"invoiceNumber\":\"INV-1\",\"date\":\"2023-04-06\",\"vendorName\":\"Acme\",\"totalAmount\":12.5,\"currency\":\"GBP\"\x7d"

/-- A schema-valid GBP invoice whose amount has three decimal places. -/
def contentGBPthird : String :=
  "\x7b\"invoiceNumber\":\"INV-2\",\"date\":\"2023-04-06\",\"vendorName\":\"Acme\",\"totalAmount\":0.001,\"currency\":\"GBP\"\x7d"

/-- A schema-valid USD invoice. -/
def contentUSD : String :=
  "\x7b\"invoiceNumber\":\"INV-3\",\"date\":\"2023-05-01\",\"vendorName\":\"Vendor\",\"totalAmount\":100,\"currency\":\"USD\"\x7d"

/-- A schema-valid USD invoice followed by a no-break space (U+00A0):
`trim` removes the character but the JSON grammar does not treat it as
whitespace. -/
def contentNbsp : String := contentUSD ++ String.mk [Char.ofNat 160]

/-- A file whose extraction succeeds end to end (GBP). -/
def envGBP : FileEnv :=
  { path := "/root/Invoices/a.pdf"
    category := "Expenditure"
    bytes := [1]
    pdfText := some "Invoice from Acme, total 12.50 GBP"
    modelContent := some contentGBP
    rate := RateResult.ok 1 }

/-- The same file content under a different path and name. -/
def envGBPmoved : FileEnv :=
  { path := "/root/Backup/copy-of-a.pdf"
    category := "Other"
    bytes := [1]
    pdfText := some "Invoice from Acme, total 12.50 GBP"
    modelContent := some contentGBP
    rate := RateResult.ok 1 }

/-- A GBP file whose extracted amount has three decimal places. -/
def envGBPthird : FileEnv :=
  { path := "/root/Invoices/b.pdf"
    category := "Expenditure"
    bytes := [2]
    pdfText := some "Invoice from Acme, total 0.001 GBP"
    modelContent := some contentGBPthird
    rate := RateResult.ok 1 }

/-- A USD file whose exchange-rate lookup throws. -/
def envUSDfallback : FileEnv :=
  { path := "/root/Invoices/c.pdf"
    category := "Income"
    bytes := [3]
    pdfText := some "Invoice from Vendor, total 100 USD"
    modelContent := some contentUSD
    rate := RateResult.fetchFailed }

/-- A file whose pdf text is too short to be readable. -/
def envShortText : FileEnv :=
  { path := "/root/Invoices/scan.pdf"
    category := "Other"
    bytes := [4]
    pdfText := some "   x   "
    modelContent := none
    rate := RateResult.fetchFailed }

/-! ## Basic facts about the per-file step -/

/-- A file whose fingerprint is already in the ledger is skipped
untouched: no extraction, no rate fetch, no insert. -/
theorem processFile_skipped_of_present (L : List Row) (f : FileEnv)
    (h : hashPresent L (fileHash f.bytes) = true) :
    processFile L f = ⟨L, Outcome.skipped, false, false⟩ := by
  unfold processFile
  simp [h]

/-- Forward evaluation of the step on a file that passes every stage. -/
theorem processFile_eq_inserted (L : List Row) (f : FileEnv) (text content : String)
    (rawInv inv : Invoice)
    (h0 : hashPresent L (fileHash f.bytes) = false)
    (h1 : f.pdfText = some text)
    (h2 : ¬(text.toList = [] ∨ (jsTrim text.toList).length < 10))
    (h3 : f.modelContent = some content)
    (h4 : parseInvoice (stripFences content.toList) = some rawInv)
    (h5 : parseInvoice (jsTrim (stripFences content.toList)) = some inv) :
    processFile L f =
      ⟨L ++ [mkRow f rawInv inv], Outcome.inserted (mkRow f rawInv inv), true,
        rateFetchCalled inv.currency⟩ := by
  unfold processFile
  simp only [String.toList] at h2 h4 h5
  simp [h0, h1, h2, h3, h4, h5]

/-- Inversion: an inserted outcome can only come from the success
branch, and the inserted row is the INSERT tuple of the two parses. -/
theorem processFile_inserted_inv {L : List Row} {f : FileEnv} {row : Row}
    (h : (processFile L f).outcome = Outcome.inserted row) :
    hashPresent L (fileHash f.bytes) = false ∧
    ∃ content rawInv inv,
      f.modelContent = some content ∧
      parseInvoice (stripFences content.toList) = some rawInv ∧
      parseInvoice (jsTrim (stripFences content.toList)) = some inv ∧
      row = mkRow f rawInv inv ∧
      processFile L f =
        ⟨L ++ [row], Outcome.inserted row, true, rateFetchCalled inv.currency⟩ := by
  unfold processFile at h ⊢
  split at h
  · simp at h
  · rename_i hpres
    split at h
    · simp at h
    · rename_i text htext
      split at h
      · simp at h
      · rename_i hlen
        split at h
        · simp at h
        · rename_i content hcontent
          split at h
          · simp at h
          · rename_i rawInv hraw
            split at h
            · simp at h
            · rename_i inv hinv
              simp at h
              subst h
              exact ⟨by simpa using hpres, content, rawInv, inv, hcontent, hraw, hinv, rfl,
                by
                  have hcond : ¬text.data = [] ∧ 10 ≤ (jsTrim text.data).length := by
                    simpa [String.toList, not_or, Nat.not_lt] using hlen
                  simp [hpres, htext, hcontent, hraw, hinv, hcond.1, hcond.2]⟩

/-! ## The claims -/

/-- C9: a path whose lowercased form holds both `income` and
`expenditure` is classified `Income` (income wins), and `Other` is the
classification exactly of paths holding neither. -/
theorem income_precedence :
    (∀ p : String,
      containsSub ("income".toList) (lowerChars p) = true →
      containsSub ("expenditure".toList) (lowerChars p) = true →
      categorize p = "Income") ∧
    (∀ p : String, categorize p = "Other" ↔
      (containsSub ("income".toList) (lowerChars p) = false ∧
       containsSub ("expenditure".toList) (lowerChars p) = false)) := by
  constructor
  · intro p hinc _
    simp only [categorize]
    rw [hinc]
    simp
  · intro p
    simp only [categorize]
    cases hinc : containsSub ("income".toList) (lowerChars p) <;>
      cases hexp : containsSub ("expenditure".toList) (lowerChars p) <;>
        simp [hinc, hexp]

/-- Witness for C9 on a path holding both substrings. -/
theorem income_precedence_witness :
    containsSub ("income".toList) (lowerChars "/tax/Income/Expenditure/a.pdf") = true ∧
    categorize "/tax/Income/Expenditure/a.pdf" = "Income" :=
  ⟨by decide,
    income_precedence.1 "/tax/Income/Expenditure/a.pdf" (by decide) (by decide)⟩

/-- C6: a fresh file whose extracted text is empty or below the
10-character readable minimum fails fast: the step records a failure,
makes no language-model call, and leaves the ledger unchanged. -/
theorem unreadable_fails_fast (L : List Row) (f : FileEnv) (text : String)
    (hfresh : hashPresent L (fileHash f.bytes) = false)
    (hpdf : f.pdfText = some text)
    (hshort : text.toList = [] ∨ (jsTrim text.toList).length < 10) :
    processFile L f =
      ⟨L, Outcome.failed "PDF contains no readable text (it might be an image/scan).",
        false, false⟩ := by
  unfold processFile
  simp only [String.toList] at hshort
  simp [hfresh, hpdf, hshort]

/-- Witness for C6 on a file with seven characters of whitespace-padded
text. -/
theorem unreadable_witness :
    processFile [] envShortText =
      ⟨[], Outcome.failed "PDF contains no readable text (it might be an image/scan).",
        false, false⟩ :=
  unreadable_fails_fast [] envShortText "   x   " rfl rfl (by decide)

/-- C8 counterexample: the export emits the date as the first column,
not in the claimed order (category first, date fifth); shown on a
concrete row and on the header line. -/
theorem export_order_cex :
    csvFields sampleRow ≠ specCsvFields sampleRow ∧
    csvHeader ≠ "Category,Tax Year,Vendor,Invoice #,Date,Original Amount,Currency,Rate,Total GBP\n" := by
  constructor <;> decide

/-- C8 amended: for a non-empty ledger the export regenerates the whole
file from the ledger alone, with exactly one line per ledger record (a
permutation — no omissions, no duplicates) and the fixed column order
date, category, tax year, vendor, invoice number, original amount,
currency, rate, base amount. -/
theorem export_complete (L : List Row) (hne : L ≠ []) :
    ∃ sorted : List Row, sorted.Perm L ∧
      exportToCSV L = some (csvHeader ++ String.intercalate "\n" (sorted.map csvLine)) ∧
      ∀ r : Row, csvLine r = String.intercalate ","
        [r.date, quoted r.category, quoted r.tax_year, quoted r.vendor, r.invoice_num,
         numStr r.total_original, r.currency, numStr r.exchange_rate, numStr r.total_gbp] := by
  refine ⟨sortByDateDesc L, ?_, ?_, fun r => rfl⟩
  · exact List.mergeSort_perm L _
  · unfold exportToCSV
    simp [List.isEmpty_iff, hne]

/-- Witness for C8 on a one-row ledger. -/
theorem export_complete_witness :
    ∃ sorted : List Row, sorted.Perm [sampleRow] ∧
      exportToCSV [sampleRow] = some (csvHeader ++ String.intercalate "\n" (sorted.map csvLine)) ∧
      ∀ r : Row, csvLine r = String.intercalate ","
        [r.date, quoted r.category, quoted r.tax_year, quoted r.vendor, r.invoice_num,
         numStr r.total_original, r.currency, numStr r.exchange_rate, numStr r.total_gbp] :=
  export_complete [sampleRow] (by decide)

/-- C1: a file whose fingerprint is in the ledger is classified skipped
with no extraction call and no insert; and after a successful insert,
any file with the same byte content — whatever its path or category —
is skipped, leaving exactly the one ledger record. -/
theorem dedup_idempotent :
    (∀ (L : List Row) (f : FileEnv), hashPresent L (fileHash f.bytes) = true →
      processFile L f = ⟨L, Outcome.skipped, false, false⟩) ∧
    (∀ (L : List Row) (f1 f2 : FileEnv) (row : Row), f1.bytes = f2.bytes →
      (processFile L f1).outcome = Outcome.inserted row →
      processFile (processFile L f1).ledger f2 =
        ⟨(processFile L f1).ledger, Outcome.skipped, false, false⟩) := by
  constructor
  · exact processFile_skipped_of_present
  · intro L f1 f2 row hbytes hins
    obtain ⟨_, content, rawInv, inv, _, _, _, hrow, heq⟩ := processFile_inserted_inv hins
    have hledger : (processFile L f1).ledger = L ++ [row] := by rw [heq]
    have hhash : row.file_hash = fileHash f1.bytes := by rw [hrow]; rfl
    apply processFile_skipped_of_present
    rw [hledger]
    simp [hashPresent, List.any_append, hhash, fileHash, hbytes]

/-- Witness for C1: the same content under a different path and
category is skipped after the first ingestion. -/
theorem dedup_witness :
    envGBP.bytes = envGBPmoved.bytes ∧
    processFile (processFile [] envGBP).ledger envGBPmoved =
      ⟨(processFile [] envGBP).ledger, Outcome.skipped, false, false⟩ :=
  ⟨rfl, dedup_idempotent.2 [] envGBP envGBPmoved
    (mkRow envGBP ⟨"INV-1", "2023-04-06", "Acme", 25/2, "GBP"⟩
      ⟨"INV-1", "2023-04-06", "Acme", 25/2, "GBP"⟩) rfl (by with_unfolding_all decide)⟩

/-- C4: when the rate lookup fails — a thrown fetch (network error) or a
response without a rate for the date — a fresh file that passes every
other stage is still persisted, with exchange rate 1; the lookup failure
never produces a failed outcome. -/
theorem rate_fallback (L : List Row) (f : FileEnv) (text content : String)
    (rawInv inv : Invoice)
    (h0 : hashPresent L (fileHash f.bytes) = false)
    (h1 : f.pdfText = some text)
    (h2 : ¬(text.toList = [] ∨ (jsTrim text.toList).length < 10))
    (h3 : f.modelContent = some content)
    (h4 : parseInvoice (stripFences content.toList) = some rawInv)
    (h5 : parseInvoice (jsTrim (stripFences content.toList)) = some inv)
    (hcur : ¬strUpper inv.currency = "GBP")
    (hrate : f.rate = RateResult.missing ∨ f.rate = RateResult.fetchFailed) :
    processFile L f =
      ⟨L ++ [mkRow f rawInv inv], Outcome.inserted (mkRow f rawInv inv), true, true⟩ ∧
    (mkRow f rawInv inv).exchange_rate = 1 ∧
    (mkRow f rawInv inv).total_gbp = round2 (inv.totalAmount * 1) := by
  have hr : getExchangeRateToGBP inv.currency f.rate = none := by
    rcases hrate with h | h <;> simp [getExchangeRateToGBP, hcur, h]
  have hfetch : rateFetchCalled inv.currency = true := by
    simp [rateFetchCalled, hcur]
  refine ⟨?_, ?_, ?_⟩
  · rw [processFile_eq_inserted L f text content rawInv inv h0 h1 h2 h3 h4 h5, hfetch]
  · simp [mkRow, hr]
  · simp [mkRow, hr]

/-- Witness for C4: a USD invoice whose rate fetch throws is persisted
with rate 1. -/
theorem rate_fallback_witness :
    processFile [] envUSDfallback =
      ⟨[] ++ [mkRow envUSDfallback ⟨"INV-3", "2023-05-01", "Vendor", 100, "USD"⟩
        ⟨"INV-3", "2023-05-01", "Vendor", 100, "USD"⟩],
       Outcome.inserted (mkRow envUSDfallback ⟨"INV-3", "2023-05-01", "Vendor", 100, "USD"⟩
        ⟨"INV-3", "2023-05-01", "Vendor", 100, "USD"⟩), true, true⟩ ∧
    (mkRow envUSDfallback ⟨"INV-3", "2023-05-01", "Vendor", 100, "USD"⟩
      ⟨"INV-3", "2023-05-01", "Vendor", 100, "USD"⟩).exchange_rate = 1 ∧
    (mkRow envUSDfallback ⟨"INV-3", "2023-05-01", "Vendor", 100, "USD"⟩
      ⟨"INV-3", "2023-05-01", "Vendor", 100, "USD"⟩).total_gbp =
      round2 ((100 : ℚ) * 1) :=
  rate_fallback [] envUSDfallback "Invoice from Vendor, total 100 USD" contentUSD
    ⟨"INV-3", "2023-05-01", "Vendor", 100, "USD"⟩
    ⟨"INV-3", "2023-05-01", "Vendor", 100, "USD"⟩
    rfl rfl (by decide) rfl (by with_unfolding_all decide) (by with_unfolding_all decide)
    (by decide) (Or.inr rfl)

/-! ## Whitespace facts -/

theorem jsonWs_cases {c : Char} (h : jsonWsChar c = true) :
    c = ' ' ∨ c = '\t' ∨ c = '\n' ∨ c = '\r' := by
  simp only [jsonWsChar, Bool.or_eq_true, beq_iff_eq] at h
  tauto

theorem jsonWs_jsWs {c : Char} (h : jsonWsChar c = true) : jsWsChar c = true := by
  rcases jsonWs_cases h with h | h | h | h <;> subst h <;> decide

theorem digit_not_jsWs {c : Char} (h : isDigitChar c = true) : jsWsChar c = false := by
  simp only [isDigitChar, Bool.and_eq_true, decide_eq_true_eq] at h
  simp only [jsWsChar, jsWsCodes, List.mem_cons, List.not_mem_nil, or_false,
    decide_eq_false_iff_not]
  omega

theorem digit_not_jsonWs {c : Char} (h : isDigitChar c = true) : jsonWsChar c = false := by
  cases hws : jsonWsChar c
  · rfl
  · rcases jsonWs_cases hws with h2 | h2 | h2 | h2 <;> subst h2 <;> exact absurd h (by decide)

theorem ws_not_digit {c : Char} (h : jsonWsChar c = true) : isDigitChar c = false := by
  rcases jsonWs_cases h with h | h | h | h <;> subst h <;> decide

/-! ## skipWs facts -/

theorem skipWs_nil_of_all {w : List Char} (hw : ∀ c ∈ w, jsonWsChar c = true) :
    skipWs w = [] := by
  simp only [skipWs, List.dropWhile_eq_nil_iff]
  exact fun x hx => hw x hx

theorem skipWs_cons_of_not {c : Char} (t : List Char) (h : jsonWsChar c = false) :
    skipWs (c :: t) = c :: t := by
  simp [skipWs, List.dropWhile_cons, h]

theorem skipWs_shift {w : List Char} (hw : ∀ c ∈ w, jsonWsChar c = true) (x : List Char) :
    skipWs (x ++ w) = addTail w (skipWs x) := by
  induction x with
  | nil =>
    rw [List.nil_append, skipWs_nil_of_all hw]
    simp [skipWs, addTail]
  | cons c t ih =>
    by_cases hc : jsonWsChar c = true
    · simp only [List.cons_append, skipWs, List.dropWhile_cons, hc, if_true]
      exact ih
    · simp only [Bool.not_eq_true] at hc
      rw [List.cons_append, skipWs_cons_of_not _ hc, skipWs_cons_of_not _ hc]
      simp [addTail]

theorem skipWs_sound (x : List Char) :
    ∃ pre, x = pre ++ skipWs x ∧ ∀ c ∈ pre, jsonWsChar c = true :=
  ⟨x.takeWhile jsonWsChar, (List.takeWhile_append_dropWhile jsonWsChar x).symm,
    fun c hc => List.mem_takeWhile_imp hc⟩

theorem ws_ne {c d : Char} (h : jsonWsChar c = true) (hd : jsonWsChar d = false) : ¬c = d := by
  intro he
  rw [he, hd] at h
  exact Bool.false_ne_true h

theorem takeWhile_append_fail {p : Char → Bool} {w : List Char}
    (hw : ∀ c ∈ w, p c = false) : ∀ x : List Char, (x ++ w).takeWhile p = x.takeWhile p := by
  intro x
  induction x with
  | nil =>
    cases w with
    | nil => rfl
    | cons c t => simp [List.takeWhile_cons, hw c (by simp)]
  | cons c t ih =>
    simp only [List.cons_append, List.takeWhile_cons]
    cases p c <;> simp [ih]

theorem dropWhile_append_fail {p : Char → Bool} {w : List Char}
    (hw : ∀ c ∈ w, p c = false) : ∀ x : List Char, (x ++ w).dropWhile p = x.dropWhile p ++ w := by
  intro x
  induction x with
  | nil =>
    cases w with
    | nil => rfl
    | cons c t => simp [List.dropWhile_cons, hw c (by simp)]
  | cons c t ih =>
    simp only [List.cons_append, List.dropWhile_cons]
    cases p c <;> simp [ih]

theorem parseDigits_shift {w : List Char} (hw : ∀ c ∈ w, jsonWsChar c = true) (x : List Char) :
    parseDigits (x ++ w) = (parseDigits x).map (fun q => (q.1, q.2 ++ w)) := by
  have hfail : ∀ c ∈ w, isDigitChar c = false := fun c hc => ws_not_digit (hw c hc)
  unfold parseDigits
  rw [takeWhile_append_fail hfail, dropWhile_append_fail hfail]
  by_cases hx : (x.takeWhile isDigitChar).isEmpty <;> simp [hx]

theorem parseIntPart_shift {w : List Char} (hw : ∀ c ∈ w, jsonWsChar c = true) (x : List Char) :
    parseIntPart (x ++ w) = (parseIntPart x).map (fun q => (q.1, q.2 ++ w)) := by
  cases x with
  | nil =>
    cases w with
    | nil => rfl
    | cons c t =>
      have hd : isDigitChar c = false := ws_not_digit (hw c (by simp))
      have h0 : ¬c = '0' := ws_ne (hw c (by simp)) (by decide)
      simp [parseIntPart, h0, parseDigits, List.takeWhile_cons, hd]
  | cons c t =>
    by_cases h0 : c = '0'
    · subst h0
      simp [parseIntPart]
    · have := parseDigits_shift hw (c :: t)
      simp only [List.cons_append] at this ⊢
      simp only [parseIntPart, h0, if_false, this]
      cases parseDigits (c :: t) with
      | none => rfl
      | some q => rfl

theorem parseFracPart_shift {w : List Char} (hw : ∀ c ∈ w, jsonWsChar c = true) (x : List Char) :
    parseFracPart (x ++ w) = (parseFracPart x).map (fun q => (q.1, q.2 ++ w)) := by
  cases x with
  | nil =>
    cases w with
    | nil => rfl
    | cons c t =>
      have hdot : ¬c = '.' := ws_ne (hw c (by simp)) (by decide)
      simp [parseFracPart, hdot]
  | cons c t =>
    by_cases hdot : c = '.'
    · subst hdot
      have := parseDigits_shift hw t
      simp only [List.cons_append, parseFracPart, if_pos rfl, this]
      cases parseDigits t with
      | none => rfl
      | some q => rfl
    · simp [parseFracPart, hdot]

theorem parseExpDigits_shift {w : List Char} (hw : ∀ c ∈ w, jsonWsChar c = true)
    (sg : Int) (x : List Char) :
    parseExpDigits sg (x ++ w) = (parseExpDigits sg x).map (fun q => (q.1, q.2 ++ w)) := by
  unfold parseExpDigits
  rw [parseDigits_shift hw]
  cases parseDigits x with
  | none => rfl
  | some q => rfl

theorem parseExpPart_shift {w : List Char} (hw : ∀ c ∈ w, jsonWsChar c = true) (x : List Char) :
    parseExpPart (x ++ w) = (parseExpPart x).map (fun q => (q.1, q.2 ++ w)) := by
  cases x with
  | nil =>
    cases w with
    | nil => rfl
    | cons c t =>
      have he : ¬(c = 'e' ∨ c = 'E') := by
        rintro (h | h) <;> exact ws_ne (hw c (by simp)) (by decide) h
      simp [parseExpPart, he, List.nil_append]
  | cons c t =>
    by_cases he : c = 'e' ∨ c = 'E'
    · simp only [List.cons_append, parseExpPart, if_pos he]
      cases t with
      | nil =>
        cases w with
        | nil => rfl
        | cons wc wt =>
          have hplus : ¬wc = '+' := ws_ne (hw wc (by simp)) (by decide)
          have hminus : ¬wc = '-' := ws_ne (hw wc (by simp)) (by decide)
          have hd : isDigitChar wc = false := ws_not_digit (hw wc (by simp))
          simp [hplus, hminus, parseExpDigits, parseDigits, List.takeWhile_cons, hd]
      | cons tc tt =>
        by_cases hp : tc = '+'
        · subst hp
          simp only [List.cons_append, if_pos rfl]
          exact parseExpDigits_shift hw 1 tt
        · by_cases hm : tc = '-'
          · subst hm
            simp only [List.cons_append, hp, if_false, if_pos rfl]
            exact parseExpDigits_shift hw (-1) tt
          · simp only [List.cons_append, hp, hm, if_false]
            exact parseExpDigits_shift hw 1 (tc :: tt)
    · simp [parseExpPart, he]

theorem parseNumBody_shift {w : List Char} (hw : ∀ c ∈ w, jsonWsChar c = true) (x : List Char) :
    parseNumBody (x ++ w) = (parseNumBody x).map (fun q => (q.1, q.2 ++ w)) := by
  unfold parseNumBody
  rw [parseIntPart_shift hw]
  cases hip : parseIntPart x with
  | none => rfl
  | some q =>
    obtain ⟨ip, s2⟩ := q
    simp only [Option.map_some']
    rw [parseFracPart_shift hw]
    cases hfp : parseFracPart s2 with
    | none => rfl
    | some q2 =>
      obtain ⟨fp, s3⟩ := q2
      simp only [Option.map_some']
      rw [parseExpPart_shift hw]
      cases hex : parseExpPart s3 with
      | none => rfl
      | some q3 => rfl

theorem parseNumber_shift {w : List Char} (hw : ∀ c ∈ w, jsonWsChar c = true) (x : List Char) :
    parseNumber (x ++ w) = (parseNumber x).map (fun q => (q.1, q.2 ++ w)) := by
  cases x with
  | nil =>
    cases w with
    | nil => rfl
    | cons c t =>
      have hminus : ¬c = '-' := ws_ne (hw c (by simp)) (by decide)
      have hd : isDigitChar c = false := ws_not_digit (hw c (by simp))
      have h0 : ¬c = '0' := ws_ne (hw c (by simp)) (by decide)
      simp [parseNumber, hminus, parseNumBody, parseIntPart, h0, parseDigits,
        List.takeWhile_cons, hd]
  | cons c t =>
    by_cases hminus : c = '-'
    · subst hminus
      simp only [List.cons_append, parseNumber, if_pos rfl]
      rw [parseNumBody_shift hw]
      cases parseNumBody t with
      | none => rfl
      | some q => rfl
    · simp only [List.cons_append, parseNumber, hminus, if_false]
      rw [show (c :: (t ++ w)) = ((c :: t) ++ w) from rfl, parseNumBody_shift hw]

theorem isPrefixOf_append_ws {w : List Char} (hw : ∀ c ∈ w, jsonWsChar c = true) :
    ∀ (lit x : List Char), (∀ c ∈ lit, jsonWsChar c = false) →
      lit.isPrefixOf (x ++ w) = lit.isPrefixOf x := by
  intro lit
  induction lit with
  | nil => intro x _; simp [List.isPrefixOf]
  | cons l lt ih =>
    intro x hlit
    cases x with
    | nil =>
      cases w with
      | nil => rfl
      | cons c t =>
        have : ¬l = c := fun he =>
          ws_ne (hw c (by simp)) (hlit l (by simp)) he.symm
        simp [List.isPrefixOf, List.nil_append, this, beq_iff_eq]
    | cons a xt =>
      show (l == a && lt.isPrefixOf (xt ++ w)) = (l == a && lt.isPrefixOf xt)
      rw [ih xt (fun c hc => hlit c (List.mem_cons_of_mem _ hc))]

theorem ws_hexVal_none {c : Char} (h : jsonWsChar c = true) : hexVal c = none := by
  rcases jsonWs_cases h with h | h | h | h <;> subst h <;> decide

theorem ws_escChar_none {c : Char} (h : jsonWsChar c = true) : escChar c = none := by
  rcases jsonWs_cases h with h | h | h | h <;> subst h <;> decide

theorem parseStrBody_cons (c : Char) (rest : List Char) :
    parseStrBody (c :: rest) =
      (if c = '"' then some ([], rest)
       else if c = '\\' then
         match rest with
         | [] => none
         | e :: rest2 =>
           if e = 'u' then
             match rest2 with
             | a :: b :: c2 :: d :: rest3 =>
               match hexVal a, hexVal b, hexVal c2, hexVal d with
               | some ha, some hb, some hc, some hd =>
                 let n := ((ha * 16 + hb) * 16 + hc) * 16 + hd
                 if n < 55296 ∨ 57344 ≤ n then
                   match parseStrBody rest3 with
                   | some (cs, r) => some (Char.ofNat n :: cs, r)
                   | none => none
                 else none
               | _, _, _, _ => none
             | _ => none
           else
             match escChar e with
             | some ch =>
               match parseStrBody rest2 with
               | some (cs, r) => some (ch :: cs, r)
               | none => none
             | none => none
       else if c.toNat < 32 then none
       else
         match parseStrBody rest with
         | some (cs, r) => some (c :: cs, r)
         | none => none) := by
  cases rest with
  | nil => rfl
  | cons e rest2 =>
    match rest2 with
    | [] => rfl
    | [a] => rfl
    | [a, b] => rfl
    | [a, b, c2] => rfl
    | a :: b :: c2 :: d :: rest3 => rfl

theorem parseStrBody_ws_none {w : List Char} (hw : ∀ c ∈ w, jsonWsChar c = true) :
    parseStrBody w = none := by
  induction w with
  | nil => rfl
  | cons c t ih =>
    have iht := ih (fun e he => hw e (List.mem_cons_of_mem _ he))
    rcases jsonWs_cases (hw c (by simp)) with h | h | h | h <;> subst h <;>
      simp [parseStrBody_cons, iht]

theorem parseStrBody_shift {w : List Char} (hw : ∀ c ∈ w, jsonWsChar c = true) :
    ∀ x : List Char,
      parseStrBody (x ++ w) = (parseStrBody x).map (fun p => (p.1, p.2 ++ w)) := by
  have main : ∀ (n : Nat) (x : List Char), x.length ≤ n →
      parseStrBody (x ++ w) = (parseStrBody x).map (fun p => (p.1, p.2 ++ w)) := by
    intro n
    induction n with
    | zero =>
      intro x hx
      have hx0 : x = [] := List.length_eq_zero.mp (Nat.le_zero.mp hx)
      subst hx0
      simpa using parseStrBody_ws_none hw
    | succ n ih =>
      intro x hx
      match x with
      | [] => simpa using parseStrBody_ws_none hw
      | c :: rest =>
        rw [List.cons_append, parseStrBody_cons, parseStrBody_cons]
        by_cases hq : c = '"'
        · simp [hq]
        · by_cases hbs : c = '\\'
          · subst hbs
            simp only [if_neg hq, if_pos rfl]
            match rest with
            | [] =>
              match w, hw with
              | [], _ => simp
              | e :: t, hw =>
                have h1 : ¬e = 'u' := ws_ne (hw e (by simp)) (by decide)
                have h2 : escChar e = none := ws_escChar_none (hw e (by simp))
                simp [h1, h2]
            | e :: rest2 =>
              simp only [List.cons_append]
              by_cases hu : e = 'u'
              · simp only [if_pos hu]
                match rest2 with
                | a :: b :: c2 :: d :: rest3 =>
                  simp only [List.cons_append]
                  have hlen : rest3.length ≤ n := by
                    simp only [List.length_cons] at hx; omega
                  cases h1 : hexVal a <;> cases h2 : hexVal b <;> cases h3 : hexVal c2 <;>
                      cases h4 : hexVal d <;> simp only []
                  case some.some.some.some ha hb hc hd =>
                    by_cases hval : ((ha * 16 + hb) * 16 + hc) * 16 + hd < 55296 ∨
                        57344 ≤ ((ha * 16 + hb) * 16 + hc) * 16 + hd
                    · rw [ih rest3 hlen]
                      cases parseStrBody rest3 with
                      | none => simp [hval]
                      | some p => simp [hval]
                    · simp [hval]
                  all_goals rfl
                | [] =>
                  match w, hw with
                  | [], _ => simp
                  | v1 :: wt, hw =>
                    have hv1 := ws_hexVal_none (hw v1 (by simp))
                    match wt, hw with
                    | [], _ => simp
                    | v2 :: wt2, hw =>
                      match wt2, hw with
                      | [], _ => simp
                      | v3 :: wt3, hw =>
                        match wt3, hw with
                        | [], _ => simp
                        | v4 :: wt4, hw => simp [hv1]
                | [a] =>
                  match w, hw with
                  | [], _ => simp
                  | v1 :: wt, hw =>
                    have hv1 := ws_hexVal_none (hw v1 (by simp))
                    match wt, hw with
                    | [], _ => simp
                    | v2 :: wt2, hw =>
                      have hv2 := ws_hexVal_none (hw v2 (by simp))
                      match wt2, hw with
                      | [], _ => simp
                      | v3 :: wt3, hw =>
                        cases h1 : hexVal a <;> simp [h1, hv1]
                | [a, b] =>
                  match w, hw with
                  | [], _ => simp
                  | v1 :: wt, hw =>
                    have hv1 := ws_hexVal_none (hw v1 (by simp))
                    match wt, hw with
                    | [], _ => simp
                    | v2 :: wt2, hw =>
                      cases h1 : hexVal a <;> cases h2 : hexVal b <;>
                        simp [h1, h2, hv1]
                | [a, b, c2] =>
                  match w, hw with
                  | [], _ => simp
                  | v1 :: wt, hw =>
                    have hv1 := ws_hexVal_none (hw v1 (by simp))
                    cases h1 : hexVal a <;> cases h2 : hexVal b <;> cases h3 : hexVal c2 <;>
                      simp [h1, h2, h3, hv1]
              · simp only [if_neg hu]
                cases hesc : escChar e with
                | none => simp
                | some ch =>
                  have hlen : rest2.length ≤ n := by
                    simp only [List.length_cons] at hx; omega
                  simp only []
                  rw [ih rest2 hlen]
                  cases parseStrBody rest2 with
                  | none => simp
                  | some p => simp
          · by_cases hlt : c.toNat < 32
            · simp [hq, hbs, hlt]
            · have hlen : rest.length ≤ n := by
                simp only [List.length_cons] at hx; omega
              simp only [if_neg hq, if_neg hbs, if_neg hlt]
              rw [ih rest hlen]
              cases parseStrBody rest with
              | none => simp
              | some p => simp
  exact fun x => main x.length x le_rfl

theorem parseVal_nil (fuel : Nat) : parseVal fuel [] = none := by cases fuel <;> rfl
theorem parseArrRest_nil (fuel : Nat) : parseArrRest fuel [] = none := by cases fuel <;> rfl
theorem parseArrTail_nil (fuel : Nat) : parseArrTail fuel [] = none := by cases fuel <;> rfl
theorem parseObjRest_nil (fuel : Nat) : parseObjRest fuel [] = none := by cases fuel <;> rfl
theorem parseObjTail_nil (fuel : Nat) : parseObjTail fuel [] = none := by cases fuel <;> rfl

theorem ws_beq_false {c d : Char} (h : jsonWsChar c = true) (hd : jsonWsChar d = false) :
    (c == d) = false ∧ (d == c) = false := by
  constructor <;> rw [beq_eq_false_iff_ne] <;>
    first
    | exact ws_ne h hd
    | exact fun he => ws_ne h hd he.symm

theorem parseNumber_ws_none {w : List Char} (hw : ∀ c ∈ w, jsonWsChar c = true) :
    parseNumber w = none := by
  cases w with
  | nil => rfl
  | cons c t =>
    have hminus : ¬c = '-' := ws_ne (hw c (by simp)) (by decide)
    have h0 : ¬c = '0' := ws_ne (hw c (by simp)) (by decide)
    have hd : isDigitChar c = false := ws_not_digit (hw c (by simp))
    simp [parseNumber, hminus, parseNumBody, parseIntPart, h0, parseDigits,
      List.takeWhile_cons, hd]

theorem parseVal_ws_none {w : List Char} (hw : ∀ c ∈ w, jsonWsChar c = true)
    (fuel : Nat) : parseVal fuel w = none := by
  cases fuel with
  | zero => rfl
  | succ n =>
    cases w with
    | nil => rfl
    | cons c t =>
      have hcw := hw c (by simp)
      have hq : ¬c = '"' := ws_ne hcw (by decide)
      have hob : ¬c = '{' := ws_ne hcw (by decide)
      have harr : ¬c = '[' := ws_ne hcw (by decide)
      have ht : (('t' : Char) == c) = false := (ws_beq_false hcw (by decide)).2
      have hf : (('f' : Char) == c) = false := (ws_beq_false hcw (by decide)).2
      have hn : (('n' : Char) == c) = false := (ws_beq_false hcw (by decide)).2
      have hnum := parseNumber_ws_none hw
      simp [parseVal, hq, hob, harr, List.isPrefixOf, ht, hf, hn, hnum]

theorem parseArrRest_ws_none {w : List Char} (hw : ∀ c ∈ w, jsonWsChar c = true)
    (fuel : Nat) : parseArrRest fuel w = none := by
  cases fuel with
  | zero => rfl
  | succ n =>
    cases w with
    | nil => rfl
    | cons c t =>
      have hrb : ¬c = ']' := ws_ne (hw c (by simp)) (by decide)
      simp [parseArrRest, hrb, parseVal_ws_none hw n]

theorem parseArrTail_ws_none {w : List Char} (hw : ∀ c ∈ w, jsonWsChar c = true)
    (fuel : Nat) : parseArrTail fuel w = none := by
  cases fuel with
  | zero => rfl
  | succ n =>
    cases w with
    | nil => rfl
    | cons c t =>
      have hrb : ¬c = ']' := ws_ne (hw c (by simp)) (by decide)
      have hcm : ¬c = ',' := ws_ne (hw c (by simp)) (by decide)
      simp [parseArrTail, hrb, hcm]

theorem parseObjRest_ws_none {w : List Char} (hw : ∀ c ∈ w, jsonWsChar c = true)
    (fuel : Nat) : parseObjRest fuel w = none := by
  cases fuel with
  | zero => rfl
  | succ n =>
    cases w with
    | nil => rfl
    | cons c t =>
      have hrb : ¬c = '}' := ws_ne (hw c (by simp)) (by decide)
      have hq : ¬c = '"' := ws_ne (hw c (by simp)) (by decide)
      simp [parseObjRest, hrb, hq]

theorem parseObjTail_ws_none {w : List Char} (hw : ∀ c ∈ w, jsonWsChar c = true)
    (fuel : Nat) : parseObjTail fuel w = none := by
  cases fuel with
  | zero => rfl
  | succ n =>
    cases w with
    | nil => rfl
    | cons c t =>
      have hrb : ¬c = '}' := ws_ne (hw c (by simp)) (by decide)
      have hcm : ¬c = ',' := ws_ne (hw c (by simp)) (by decide)
      simp [parseObjTail, hrb, hcm]

theorem shiftV_step {w : List Char} (hw : ∀ c ∈ w, jsonWsChar c = true) (n : Nat)
    (ihA : ∀ x, parseArrRest n (x ++ w) = (parseArrRest n x).map (fun p => (p.1, addTail w p.2)))
    (ihO : ∀ x, parseObjRest n (x ++ w) = (parseObjRest n x).map (fun p => (p.1, addTail w p.2))) :
    ∀ x, parseVal (n + 1) (x ++ w) = (parseVal (n + 1) x).map (fun p => (p.1, addTail w p.2)) := by
  intro x
  match x with
  | [] => simp [parseVal_ws_none hw, parseVal_nil]
  | c :: t =>
    rw [List.cons_append]
    by_cases hq : c = '"'
    · subst hq
      simp only [parseVal, if_pos rfl]
      rw [parseStrBody_shift hw t]
      cases hsb : parseStrBody t with
      | none => rfl
      | some p =>
        obtain ⟨cs, r⟩ := p
        simp [skipWs_shift hw r]
    · by_cases hob : c = '{'
      · subst hob
        simp only [parseVal, if_neg hq, if_pos rfl]
        rw [skipWs_shift hw t]
        cases hsk : skipWs t with
        | nil => simp [addTail, parseObjRest_nil]
        | cons u0 u =>
          have := ihO (u0 :: u)
          simp only [addTail, List.cons_append] at this ⊢
          simp only [if_neg (List.cons_ne_nil u0 u), this]
          cases parseObjRest n (u0 :: u) with
          | none => rfl
          | some p => rfl
      · by_cases harr : c = '['
        · subst harr
          simp only [parseVal, if_neg hq, if_neg hob, if_pos rfl]
          rw [skipWs_shift hw t]
          cases hsk : skipWs t with
          | nil => simp [addTail, parseArrRest_nil]
          | cons u0 u =>
            have := ihA (u0 :: u)
            simp only [addTail, List.cons_append] at this ⊢
            simp only [if_neg (List.cons_ne_nil u0 u), this]
            cases parseArrRest n (u0 :: u) with
            | none => rfl
            | some p => rfl
        · have hlitT : (∀ e ∈ ("true".toList), jsonWsChar e = false) := by decide
          have hlitF : (∀ e ∈ ("false".toList), jsonWsChar e = false) := by decide
          have hlitN : (∀ e ∈ ("null".toList), jsonWsChar e = false) := by decide
          simp only [parseVal, if_neg hq, if_neg hob, if_neg harr]
          rw [show (c :: (t ++ w)) = ((c :: t) ++ w) from rfl]
          rw [isPrefixOf_append_ws hw _ _ hlitT, isPrefixOf_append_ws hw _ _ hlitF,
            isPrefixOf_append_ws hw _ _ hlitN]
          by_cases hT : ("true".toList).isPrefixOf (c :: t)
          · have hlen : 4 ≤ (c :: t).length :=
              (List.isPrefixOf_iff_prefix.mp hT).length_le
            simp only [if_pos hT, List.drop_append_of_le_length hlen, skipWs_shift hw,
              Option.map_some']
          · by_cases hF : ("false".toList).isPrefixOf (c :: t)
            · have hlen : 5 ≤ (c :: t).length :=
                (List.isPrefixOf_iff_prefix.mp hF).length_le
              simp only [if_neg hT, if_pos hF, List.drop_append_of_le_length hlen,
                skipWs_shift hw, Option.map_some']
            · by_cases hN : ("null".toList).isPrefixOf (c :: t)
              · have hlen : 4 ≤ (c :: t).length :=
                  (List.isPrefixOf_iff_prefix.mp hN).length_le
                simp only [if_neg hT, if_neg hF, if_pos hN, List.drop_append_of_le_length hlen,
                  skipWs_shift hw, Option.map_some']
              · simp only [if_neg hT, if_neg hF, if_neg hN]
                rw [parseNumber_shift hw (c :: t)]
                cases hnum : parseNumber (c :: t) with
                | none => rfl
                | some p =>
                  obtain ⟨q, r⟩ := p
                  simp [skipWs_shift hw r]

theorem shiftA_step {w : List Char} (hw : ∀ c ∈ w, jsonWsChar c = true) (n : Nat)
    (ihV : ∀ x, parseVal n (x ++ w) = (parseVal n x).map (fun p => (p.1, addTail w p.2)))
    (ihAT : ∀ x, parseArrTail n (x ++ w) = (parseArrTail n x).map (fun p => (p.1, addTail w p.2))) :
    ∀ x, parseArrRest (n + 1) (x ++ w) =
      (parseArrRest (n + 1) x).map (fun p => (p.1, addTail w p.2)) := by
  intro x
  match x with
  | [] => simp [parseArrRest_ws_none hw, parseArrRest_nil]
  | c :: t =>
    rw [List.cons_append]
    by_cases hrb : c = ']'
    · simp only [parseArrRest, if_pos hrb, skipWs_shift hw, Option.map_some']
    · simp only [parseArrRest, if_neg hrb]
      rw [show (c :: (t ++ w)) = ((c :: t) ++ w) from rfl, ihV (c :: t)]
      cases hv : parseVal n (c :: t) with
      | none => rfl
      | some p =>
        obtain ⟨v, r⟩ := p
        simp only [Option.map_some']
        match r with
        | [] => simp [addTail, parseArrTail_nil]
        | r0 :: rr =>
          rw [show addTail w (r0 :: rr) = (r0 :: rr) ++ w from by simp [addTail]]
          rw [ihAT (r0 :: rr)]
          cases parseArrTail n (r0 :: rr) with
          | none => rfl
          | some p2 => rfl

theorem shiftAT_step {w : List Char} (hw : ∀ c ∈ w, jsonWsChar c = true) (n : Nat)
    (ihV : ∀ x, parseVal n (x ++ w) = (parseVal n x).map (fun p => (p.1, addTail w p.2)))
    (ihAT : ∀ x, parseArrTail n (x ++ w) = (parseArrTail n x).map (fun p => (p.1, addTail w p.2))) :
    ∀ x, parseArrTail (n + 1) (x ++ w) =
      (parseArrTail (n + 1) x).map (fun p => (p.1, addTail w p.2)) := by
  intro x
  match x with
  | [] => simp [parseArrTail_ws_none hw, parseArrTail_nil]
  | c :: t =>
    rw [List.cons_append]
    by_cases hrb : c = ']'
    · simp only [parseArrTail, if_pos hrb, skipWs_shift hw, Option.map_some']
    · by_cases hcm : c = ','
      · simp only [parseArrTail, if_neg hrb, if_pos hcm]
        rw [skipWs_shift hw t]
        cases hsk : skipWs t with
        | nil => simp [addTail, parseVal_nil]
        | cons u0 u =>
          rw [show addTail w (u0 :: u) = (u0 :: u) ++ w from by simp [addTail]]
          rw [ihV (u0 :: u)]
          cases hv : parseVal n (u0 :: u) with
          | none => rfl
          | some p =>
            obtain ⟨v, r⟩ := p
            simp only [Option.map_some']
            match r with
            | [] => simp [addTail, parseArrTail_nil]
            | r0 :: rr =>
              rw [show addTail w (r0 :: rr) = (r0 :: rr) ++ w from by simp [addTail]]
              rw [ihAT (r0 :: rr)]
              cases parseArrTail n (r0 :: rr) with
              | none => rfl
              | some p2 => rfl
      · simp [parseArrTail, hrb, hcm]

theorem shiftO_step {w : List Char} (hw : ∀ c ∈ w, jsonWsChar c = true) (n : Nat)
    (ihV : ∀ x, parseVal n (x ++ w) = (parseVal n x).map (fun p => (p.1, addTail w p.2)))
    (ihOT : ∀ x, parseObjTail n (x ++ w) = (parseObjTail n x).map (fun p => (p.1, addTail w p.2))) :
    ∀ x, parseObjRest (n + 1) (x ++ w) =
      (parseObjRest (n + 1) x).map (fun p => (p.1, addTail w p.2)) := by
  intro x
  match x with
  | [] => simp [parseObjRest_ws_none hw, parseObjRest_nil]
  | c :: t =>
    rw [List.cons_append]
    by_cases hrb : c = '}'
    · simp only [parseObjRest, if_pos hrb, skipWs_shift hw, Option.map_some']
    · by_cases hq : c = '"'
      · simp only [parseObjRest, if_neg hrb, if_pos hq]
        rw [parseStrBody_shift hw t]
        cases hsb : parseStrBody t with
        | none => rfl
        | some p =>
          obtain ⟨k, r⟩ := p
          simp only [Option.map_some']
          rw [skipWs_shift hw r]
          cases hsk : skipWs r with
          | nil => simp [addTail]
          | cons c2 r2 =>
            rw [show addTail w (c2 :: r2) = c2 :: (r2 ++ w) from by simp [addTail]]
            by_cases hcol : c2 = ':'
            · simp only [if_pos hcol]
              rw [skipWs_shift hw r2]
              cases hsk2 : skipWs r2 with
              | nil => simp [addTail, parseVal_nil]
              | cons u0 u =>
                rw [show addTail w (u0 :: u) = (u0 :: u) ++ w from by simp [addTail]]
                rw [ihV (u0 :: u)]
                cases hv : parseVal n (u0 :: u) with
                | none => rfl
                | some p2 =>
                  obtain ⟨v, r3⟩ := p2
                  simp only [Option.map_some']
                  match r3 with
                  | [] => simp [addTail, parseObjTail_nil]
                  | r30 :: r3r =>
                    rw [show addTail w (r30 :: r3r) = (r30 :: r3r) ++ w from by simp [addTail]]
                    rw [ihOT (r30 :: r3r)]
                    cases parseObjTail n (r30 :: r3r) with
                    | none => rfl
                    | some p3 => rfl
            · simp [hcol]
      · simp [parseObjRest, hrb, hq]

theorem shiftOT_step {w : List Char} (hw : ∀ c ∈ w, jsonWsChar c = true) (n : Nat)
    (ihV : ∀ x, parseVal n (x ++ w) = (parseVal n x).map (fun p => (p.1, addTail w p.2)))
    (ihOT : ∀ x, parseObjTail n (x ++ w) = (parseObjTail n x).map (fun p => (p.1, addTail w p.2))) :
    ∀ x, parseObjTail (n + 1) (x ++ w) =
      (parseObjTail (n + 1) x).map (fun p => (p.1, addTail w p.2)) := by
  intro x
  match x with
  | [] => simp [parseObjTail_ws_none hw, parseObjTail_nil]
  | c :: t =>
    rw [List.cons_append]
    by_cases hrb : c = '}'
    · simp only [parseObjTail, if_pos hrb, skipWs_shift hw, Option.map_some']
    · by_cases hcm : c = ','
      · simp only [parseObjTail, if_neg hrb, if_pos hcm]
        rw [skipWs_shift hw t]
        cases hsk : skipWs t with
        | nil => simp [addTail]
        | cons c2 t2 =>
          rw [show addTail w (c2 :: t2) = c2 :: (t2 ++ w) from by simp [addTail]]
          by_cases hq : c2 = '"'
          · simp only [if_pos hq]
            rw [parseStrBody_shift hw t2]
            cases hsb : parseStrBody t2 with
            | none => rfl
            | some p =>
              obtain ⟨k, r⟩ := p
              simp only [Option.map_some']
              rw [skipWs_shift hw r]
              cases hsk2 : skipWs r with
              | nil => simp [addTail]
              | cons c3 r2 =>
                rw [show addTail w (c3 :: r2) = c3 :: (r2 ++ w) from by simp [addTail]]
                by_cases hcol : c3 = ':'
                · simp only [if_pos hcol]
                  rw [skipWs_shift hw r2]
                  cases hsk3 : skipWs r2 with
                  | nil => simp [addTail, parseVal_nil]
                  | cons u0 u =>
                    rw [show addTail w (u0 :: u) = (u0 :: u) ++ w from by simp [addTail]]
                    rw [ihV (u0 :: u)]
                    cases hv : parseVal n (u0 :: u) with
                    | none => rfl
                    | some p2 =>
                      obtain ⟨v, r3⟩ := p2
                      simp only [Option.map_some']
                      match r3 with
                      | [] => simp [addTail, parseObjTail_nil]
                      | r30 :: r3r =>
                        rw [show addTail w (r30 :: r3r) = (r30 :: r3r) ++ w from by
                          simp [addTail]]
                        rw [ihOT (r30 :: r3r)]
                        cases parseObjTail n (r30 :: r3r) with
                        | none => rfl
                        | some p3 => rfl
                · simp [hcol]
          · simp [hq]
      · simp [parseObjTail, hrb, hcm]

theorem parseShiftAll {w : List Char} (hw : ∀ c ∈ w, jsonWsChar c = true) :
    ∀ fuel : Nat,
      (∀ x, parseVal fuel (x ++ w) = (parseVal fuel x).map (fun p => (p.1, addTail w p.2))) ∧
      (∀ x, parseArrRest fuel (x ++ w) =
        (parseArrRest fuel x).map (fun p => (p.1, addTail w p.2))) ∧
      (∀ x, parseArrTail fuel (x ++ w) =
        (parseArrTail fuel x).map (fun p => (p.1, addTail w p.2))) ∧
      (∀ x, parseObjRest fuel (x ++ w) =
        (parseObjRest fuel x).map (fun p => (p.1, addTail w p.2))) ∧
      (∀ x, parseObjTail fuel (x ++ w) =
        (parseObjTail fuel x).map (fun p => (p.1, addTail w p.2))) := by
  intro fuel
  induction fuel with
  | zero => exact ⟨fun x => rfl, fun x => rfl, fun x => rfl, fun x => rfl, fun x => rfl⟩
  | succ n ih =>
    obtain ⟨ihV, ihA, ihAT, ihO, ihOT⟩ := ih
    exact ⟨shiftV_step hw n ihA ihO, shiftA_step hw n ihV ihAT, shiftAT_step hw n ihV ihAT,
      shiftO_step hw n ihV ihOT, shiftOT_step hw n ihV ihOT⟩

theorem parseVal_shift {w : List Char} (hw : ∀ c ∈ w, jsonWsChar c = true)
    (fuel : Nat) (x : List Char) :
    parseVal fuel (x ++ w) = (parseVal fuel x).map (fun p => (p.1, addTail w p.2)) :=
  (parseShiftAll hw fuel).1 x



/-! ## Soundness: the rest is a proper suffix, and a fully consumed
input ends in a token character -/

theorem goodEnd_append_left (y : List Char) {z : List Char} (h : goodEnd z) :
    goodEnd (y ++ z) := by
  obtain ⟨a, c, b, rfl, hb, hc⟩ := h
  exact ⟨y ++ a, c, b, by simp, hb, hc⟩

theorem goodEnd_build (y : List Char) (c : Char) {z : List Char}
    (hz : ∀ e ∈ z, jsonWsChar e = true) (hc : jsWsChar c = false) :
    goodEnd (y ++ [c] ++ z) :=
  ⟨y, c, z, rfl, hz, hc⟩

theorem all_ws_of_skipWs_nil {r : List Char} (h : skipWs r = []) :
    ∀ e ∈ r, jsonWsChar e = true := by
  simpa [skipWs, List.dropWhile_eq_nil_iff] using h

theorem parseDigits_sound {x ds r : List Char} (h : parseDigits x = some (ds, r)) :
    x = ds ++ r ∧ ds ≠ [] ∧ ∀ c ∈ ds, isDigitChar c = true := by
  unfold parseDigits at h
  by_cases he : (x.takeWhile isDigitChar).isEmpty
  · simp [he] at h
  · simp only [he, if_false, Bool.false_eq_true, Option.some.injEq, Prod.mk.injEq] at h
    refine ⟨?_, ?_, ?_⟩
    · rw [← h.1, ← h.2]
      exact (List.takeWhile_append_dropWhile isDigitChar x).symm
    · rw [← h.1]
      simpa [List.isEmpty_iff] using he
    · intro c hc
      rw [← h.1] at hc
      exact List.mem_takeWhile_imp hc

theorem endsDigit_append {p q : List Char}
    (hp : ∃ d, p.getLast? = some d ∧ isDigitChar d = true)
    (hq : q = [] ∨ ∃ d, q.getLast? = some d ∧ isDigitChar d = true) :
    ∃ d, (p ++ q).getLast? = some d ∧ isDigitChar d = true := by
  rcases hq with rfl | ⟨d, hd, hdig⟩
  · simpa using hp
  · exact ⟨d, by simp [List.getLast?_append, hd], hdig⟩

theorem digits_endsDigit {ds : List Char} (hne : ds ≠ [])
    (hall : ∀ c ∈ ds, isDigitChar c = true) :
    ∃ d, ds.getLast? = some d ∧ isDigitChar d = true :=
  ⟨ds.getLast hne, List.getLast?_eq_getLast ds hne, hall _ (List.getLast_mem hne)⟩

theorem parseIntPart_sound {x : List Char} {ip : Nat} {r : List Char}
    (h : parseIntPart x = some (ip, r)) :
    ∃ b, x = b ++ r ∧ b ≠ [] ∧ ∃ d, b.getLast? = some d ∧ isDigitChar d = true := by
  match x with
  | [] => simp [parseIntPart] at h
  | c :: t =>
    by_cases h0 : c = '0'
    · subst h0
      simp only [parseIntPart, if_true, eq_self_iff_true, Option.some.injEq,
        Prod.mk.injEq] at h
      exact ⟨['0'], by simp [h.2], by simp, '0', by simp, by decide⟩
    · simp only [parseIntPart, if_neg h0] at h
      cases hd : parseDigits (c :: t) with
      | none => rw [hd] at h; exact absurd h (by simp)
      | some p =>
        rw [hd] at h
        obtain ⟨ds, r2⟩ := p
        dsimp only at h
        try simp only [Option.some.injEq, Prod.mk.injEq] at h
        obtain ⟨hds, hr⟩ := h
        subst hr
        obtain ⟨hx, hne, hall⟩ := parseDigits_sound hd
        exact ⟨ds, hx, hne, digits_endsDigit hne hall⟩

theorem parseFracPart_sound {x : List Char} {fp : ℚ} {r : List Char}
    (h : parseFracPart x = some (fp, r)) :
    ∃ b, x = b ++ r ∧
      (b = [] ∨ ∃ d, b.getLast? = some d ∧ isDigitChar d = true) := by
  match x with
  | [] =>
    simp only [parseFracPart, Option.some.injEq, Prod.mk.injEq] at h
    exact ⟨[], by simp [h.2], Or.inl rfl⟩
  | c :: t =>
    by_cases hdot : c = '.'
    · subst hdot
      simp only [parseFracPart, if_pos rfl] at h
      cases hd : parseDigits t with
      | none => rw [hd] at h; exact absurd h (by simp)
      | some p =>
        rw [hd] at h
        obtain ⟨ds, r2⟩ := p
        dsimp only at h
        try simp only [Option.some.injEq, Prod.mk.injEq] at h
        simp only [if_true, Option.some.injEq, Prod.mk.injEq] at h
        obtain ⟨hds, hr⟩ := h
        subst hr
        obtain ⟨hx, hne, hall⟩ := parseDigits_sound hd
        refine ⟨'.' :: ds, by simp [hx], Or.inr ?_⟩
        obtain ⟨d, hd2, hdig⟩ := digits_endsDigit hne hall
        exact ⟨d, by simpa [List.getLast?_cons, hne] using
          (show (('.' :: ds)).getLast? = some d by
            rw [show ('.' :: ds) = ['.'] ++ ds from rfl, List.getLast?_append, hd2]
            rfl), hdig⟩
    · simp only [parseFracPart, if_neg hdot, Option.some.injEq, Prod.mk.injEq] at h
      exact ⟨[], by simp [h.2], Or.inl rfl⟩

theorem parseExpDigits_sound {sg : Int} {x : List Char} {ex : Int} {r : List Char}
    (h : parseExpDigits sg x = some (ex, r)) :
    ∃ b, x = b ++ r ∧ b ≠ [] ∧ ∃ d, b.getLast? = some d ∧ isDigitChar d = true := by
  unfold parseExpDigits at h
  cases hd : parseDigits x with
  | none => rw [hd] at h; exact absurd h (by simp)
  | some p =>
    rw [hd] at h
    obtain ⟨ds, r2⟩ := p
    dsimp only at h
    simp only [Option.some.injEq, Prod.mk.injEq] at h
    obtain ⟨hds, hr⟩ := h
    subst hr
    obtain ⟨hx, hne, hall⟩ := parseDigits_sound hd
    exact ⟨ds, hx, hne, digits_endsDigit hne hall⟩

theorem parseExpPart_sound {x : List Char} {ex : Int} {r : List Char}
    (h : parseExpPart x = some (ex, r)) :
    ∃ b, x = b ++ r ∧
      (b = [] ∨ ∃ d, b.getLast? = some d ∧ isDigitChar d = true) := by
  match x with
  | [] =>
    simp only [parseExpPart, Option.some.injEq, Prod.mk.injEq] at h
    exact ⟨[], by simp [h.2], Or.inl rfl⟩
  | c :: t =>
    by_cases he : c = 'e' ∨ c = 'E'
    · simp only [parseExpPart, if_pos he] at h
      match t with
      | [] =>
        obtain ⟨b, hb, hne, hd⟩ := parseExpDigits_sound h
        exact absurd hb.symm (by simp [hne])
      | tc :: tt =>
        dsimp only at h
        by_cases hp : tc = '+'
        · subst hp
          rw [if_pos rfl] at h
          obtain ⟨b, hb, hne, d, hd, hdig⟩ := parseExpDigits_sound h
          refine ⟨c :: '+' :: b, by simp [hb], Or.inr ⟨d, ?_, hdig⟩⟩
          rw [show (c :: '+' :: b) = [c, '+'] ++ b from rfl, List.getLast?_append, hd]
          rfl
        · by_cases hm : tc = '-'
          · subst hm
            rw [if_neg hp, if_pos rfl] at h
            obtain ⟨b, hb, hne, d, hd, hdig⟩ := parseExpDigits_sound h
            refine ⟨c :: '-' :: b, by simp [hb], Or.inr ⟨d, ?_, hdig⟩⟩
            rw [show (c :: '-' :: b) = [c, '-'] ++ b from rfl, List.getLast?_append, hd]
            rfl
          · rw [if_neg hp, if_neg hm] at h
            obtain ⟨b, hb, hne, d, hd, hdig⟩ := parseExpDigits_sound h
            refine ⟨c :: b, by simp [hb], Or.inr ⟨d, ?_, hdig⟩⟩
            rw [show (c :: b) = [c] ++ b from rfl, List.getLast?_append, hd]
            rfl
    · simp only [parseExpPart, if_neg he, Option.some.injEq, Prod.mk.injEq] at h
      exact ⟨[], by simp [h.2], Or.inl rfl⟩

theorem parseNumBody_sound {x : List Char} {q : ℚ} {r : List Char}
    (h : parseNumBody x = some (q, r)) :
    ∃ b, x = b ++ r ∧ b ≠ [] ∧ ∃ d, b.getLast? = some d ∧ isDigitChar d = true := by
  unfold parseNumBody at h
  cases hip : parseIntPart x with
  | none => rw [hip] at h; exact absurd h (by simp)
  | some p =>
    rw [hip] at h
    obtain ⟨ip, s2⟩ := p
    dsimp only at h
    cases hfp : parseFracPart s2 with
    | none => rw [hfp] at h; exact absurd h (by simp)
    | some p2 =>
      rw [hfp] at h
      obtain ⟨fp, s3⟩ := p2
      dsimp only at h
      cases hex : parseExpPart s3 with
      | none => rw [hex] at h; exact absurd h (by simp)
      | some p3 =>
        rw [hex] at h
        obtain ⟨ex, s4⟩ := p3
        dsimp only at h
        simp only [Option.some.injEq, Prod.mk.injEq] at h
        obtain ⟨hq, hr⟩ := h
        subst hr
        obtain ⟨b1, hb1, hne1, hd1⟩ := parseIntPart_sound hip
        obtain ⟨b2, hb2, hd2⟩ := parseFracPart_sound hfp
        obtain ⟨b3, hb3, hd3⟩ := parseExpPart_sound hex
        refine ⟨b1 ++ b2 ++ b3, ?_, by simp [hne1], ?_⟩
        · rw [hb1, hb2, hb3]
          simp
        · exact endsDigit_append (endsDigit_append hd1 hd2) hd3

theorem parseNumber_sound {x : List Char} {q : ℚ} {r : List Char}
    (h : parseNumber x = some (q, r)) :
    ∃ b, x = b ++ r ∧ b ≠ [] ∧ ∃ d, b.getLast? = some d ∧ isDigitChar d = true := by
  match x with
  | [] => simp [parseNumber] at h
  | c :: t =>
    by_cases hm : c = '-'
    · subst hm
      simp only [parseNumber, if_pos rfl] at h
      cases hb : parseNumBody t with
      | none => rw [hb] at h; exact absurd h (by simp)
      | some p =>
        rw [hb] at h
        obtain ⟨q2, r2⟩ := p
        dsimp only at h
        simp only [if_true, Option.some.injEq, Prod.mk.injEq] at h
        obtain ⟨hq, hr⟩ := h
        subst hr
        obtain ⟨b, hbx, hne, d, hd, hdig⟩ := parseNumBody_sound hb
        refine ⟨'-' :: b, by simp [hbx], by simp, d, ?_, hdig⟩
        rw [show ('-' :: b) = ['-'] ++ b from rfl, List.getLast?_append, hd]
        rfl
    · simp only [parseNumber, if_neg hm] at h
      exact parseNumBody_sound h

theorem parseStrBody_sound :
    ∀ {x cs r : List Char}, parseStrBody x = some (cs, r) →
      ∃ body, x = body ++ r ∧ body ≠ [] ∧ body.getLast? = some '"' := by
  suffices main : ∀ (n : Nat) (x : List Char), x.length ≤ n → ∀ cs r,
      parseStrBody x = some (cs, r) →
      ∃ body, x = body ++ r ∧ body ≠ [] ∧ body.getLast? = some '"' by
    intro x cs r h
    exact main x.length x le_rfl cs r h
  intro n
  induction n with
  | zero =>
    intro x hx cs r h
    have hx0 : x = [] := List.length_eq_zero.mp (Nat.le_zero.mp hx)
    subst hx0
    exact absurd h (by simp [parseStrBody])
  | succ n ih =>
    intro x hx cs r h
    match x with
    | [] => exact absurd h (by simp [parseStrBody])
    | c :: rest =>
      rw [parseStrBody_cons] at h
      by_cases hq : c = '"'
      · subst hq
        simp only [eq_self_iff_true, if_true, Option.some.injEq, Prod.mk.injEq] at h
        exact ⟨['"'], by simp [h.2], by simp, by simp⟩
      · by_cases hbs : c = '\\'
        · subst hbs
          simp only [if_neg hq, eq_self_iff_true, if_true] at h
          match rest with
          | [] => exact absurd h (by simp)
          | e :: rest2 =>
            by_cases hu : e = 'u'
            · subst hu
              simp only [eq_self_iff_true, if_true] at h
              match rest2 with
              | [] => exact absurd h (by simp)
              | [a] => exact absurd h (by simp)
              | [a, b] => exact absurd h (by simp)
              | [a, b, c2] => exact absurd h (by simp)
              | a :: b :: c2 :: d :: rest3 =>
                dsimp only at h
                cases h1 : hexVal a <;> rw [h1] at h <;>
                  [skip; (cases h2 : hexVal b <;> rw [h2] at h <;>
                    [skip; (cases h3 : hexVal c2 <;> rw [h3] at h <;>
                      [skip; (cases h4 : hexVal d <;> rw [h4] at h)])])]
                case none => exact absurd h (by simp)
                case some.none => exact absurd h (by simp)
                case some.some.none => exact absurd h (by simp)
                case some.some.some.none => exact absurd h (by simp)
                case some.some.some.some ha hb hc hd =>
                  dsimp only at h
                  by_cases hval : ((ha * 16 + hb) * 16 + hc) * 16 + hd < 55296 ∨
                      57344 ≤ ((ha * 16 + hb) * 16 + hc) * 16 + hd
                  · rw [if_pos hval] at h
                    cases hrec : parseStrBody rest3 with
                    | none => rw [hrec] at h; exact absurd h (by simp)
                    | some p =>
                      rw [hrec] at h
                      obtain ⟨cs2, r2⟩ := p
                      dsimp only at h
                      simp only [Option.some.injEq, Prod.mk.injEq] at h
                      obtain ⟨hcs, hr⟩ := h
                      subst hr
                      obtain ⟨body3, hb3, hne3, hl3⟩ :=
                        ih rest3 (by simp only [List.length_cons] at hx; omega) cs2 r2 hrec
                      refine ⟨'\\' :: 'u' :: a :: b :: c2 :: d :: body3, by simp [hb3],
                        by simp, ?_⟩
                      rw [show ('\\' :: 'u' :: a :: b :: c2 :: d :: body3) =
                        ['\\', 'u', a, b, c2, d] ++ body3 from rfl, List.getLast?_append, hl3]
                      rfl
                  · rw [if_neg hval] at h
                    exact absurd h (by simp)
            · simp only [if_neg hu] at h
              cases hesc : escChar e with
              | none => rw [hesc] at h; exact absurd h (by simp)
              | some ch =>
                rw [hesc] at h
                cases hrec : parseStrBody rest2 with
                | none => rw [hrec] at h; exact absurd h (by simp)
                | some p =>
                  rw [hrec] at h
                  obtain ⟨cs2, r2⟩ := p
                  dsimp only at h
                  simp only [Option.some.injEq, Prod.mk.injEq] at h
                  obtain ⟨hcs, hr⟩ := h
                  subst hr
                  obtain ⟨body2, hb2, hne2, hl2⟩ :=
                    ih rest2 (by simp only [List.length_cons] at hx; omega) cs2 r2 hrec
                  refine ⟨'\\' :: e :: body2, by simp [hb2], by simp, ?_⟩
                  rw [show ('\\' :: e :: body2) = ['\\', e] ++ body2 from rfl,
                    List.getLast?_append, hl2]
                  rfl
        · by_cases hlt : c.toNat < 32
          · simp only [if_neg hq, if_neg hbs, if_pos hlt] at h
            exact absurd h (by simp)
          · simp only [if_neg hq, if_neg hbs, if_neg hlt] at h
            cases hrec : parseStrBody rest with
            | none => rw [hrec] at h; exact absurd h (by simp)
            | some p =>
              rw [hrec] at h
              obtain ⟨cs2, r2⟩ := p
              dsimp only at h
              simp only [Option.some.injEq, Prod.mk.injEq] at h
              obtain ⟨hcs, hr⟩ := h
              subst hr
              obtain ⟨body2, hb2, hne2, hl2⟩ :=
                ih rest (by simp only [List.length_cons] at hx; omega) cs2 r2 hrec
              refine ⟨c :: body2, by simp [hb2], by simp, ?_⟩
              rw [show (c :: body2) = [c] ++ body2 from rfl, List.getLast?_append, hl2]
              rfl

theorem soundV_step (n : Nat)
    (ihA : ∀ x vs r, parseArrRest n x = some (vs, r) →
      ((∃ cc, x = cc ++ r ∧ cc ≠ []) ∧ (r = [] → goodEnd x)))
    (ihO : ∀ x ms r, parseObjRest n x = some (ms, r) →
      ((∃ cc, x = cc ++ r ∧ cc ≠ []) ∧ (r = [] → goodEnd x))) :
    ∀ x v r, parseVal (n + 1) x = some (v, r) →
      ((∃ cc, x = cc ++ r ∧ cc ≠ []) ∧ (r = [] → goodEnd x)) := by
  intro x v r h
  match x with
  | [] => rw [parseVal_nil] at h; exact absurd h (by simp)
  | c :: t =>
    by_cases hq : c = '"'
    · subst hq
      simp only [parseVal, eq_self_iff_true, if_true] at h
      cases hsb : parseStrBody t with
      | none => rw [hsb] at h; exact absurd h (by simp)
      | some p =>
        rw [hsb] at h
        obtain ⟨cs, r0⟩ := p
        dsimp only at h
        simp only [Option.some.injEq, Prod.mk.injEq] at h
        obtain ⟨hv, hr⟩ := h
        subst hr
        obtain ⟨body, hbt, hbne, hblast⟩ := parseStrBody_sound hsb
        obtain ⟨pre, hpre, hpws⟩ := skipWs_sound r0
        constructor
        · refine ⟨'"' :: body ++ pre, ?_, by simp⟩
          rw [hbt]
          simp only [List.cons_append, List.append_assoc]
          rw [← hpre]
        · intro hrnil
          have hr0ws : ∀ e ∈ r0, jsonWsChar e = true := all_ws_of_skipWs_nil hrnil
          obtain ⟨binit, hbinit⟩ := List.getLast?_eq_some_iff.mp hblast
          rw [hbt, hbinit]
          exact goodEnd_build ('"' :: binit) '"' hr0ws (by decide)
    · by_cases hob : c = '{'
      · subst hob
        simp only [parseVal, if_neg hq, eq_self_iff_true, if_true] at h
        cases hor : parseObjRest n (skipWs t) with
        | none => rw [hor] at h; exact absurd h (by simp)
        | some p =>
          rw [hor] at h
          obtain ⟨ms, r2⟩ := p
          dsimp only at h
          simp only [Option.some.injEq, Prod.mk.injEq] at h
          obtain ⟨hv, hr⟩ := h
          subst hr
          obtain ⟨⟨cc2, hcc2, hccne⟩, hge⟩ := ihO (skipWs t) ms r2 hor
          obtain ⟨pre, hpre, hpws⟩ := skipWs_sound t
          constructor
          · exact ⟨'{' :: pre ++ cc2, by rw [show ('{' :: t) = '{' :: (pre ++ skipWs t)
              from by rw [← hpre], hcc2]; simp, by simp⟩
          · intro hrnil
            have := hge hrnil
            rw [show ('{' :: t) = ('{' :: pre) ++ skipWs t from by
              rw [List.cons_append, ← hpre]]
            exact goodEnd_append_left _ this
      · by_cases harr : c = '['
        · subst harr
          simp only [parseVal, if_neg hq, if_neg hob, eq_self_iff_true, if_true] at h
          cases hor : parseArrRest n (skipWs t) with
          | none => rw [hor] at h; exact absurd h (by simp)
          | some p =>
            rw [hor] at h
            obtain ⟨vs, r2⟩ := p
            dsimp only at h
            simp only [Option.some.injEq, Prod.mk.injEq] at h
            obtain ⟨hv, hr⟩ := h
            subst hr
            obtain ⟨⟨cc2, hcc2, hccne⟩, hge⟩ := ihA (skipWs t) vs r2 hor
            obtain ⟨pre, hpre, hpws⟩ := skipWs_sound t
            constructor
            · exact ⟨'[' :: pre ++ cc2, by rw [show ('[' :: t) = '[' :: (pre ++ skipWs t)
                from by rw [← hpre], hcc2]; simp, by simp⟩
            · intro hrnil
              have := hge hrnil
              rw [show ('[' :: t) = ('[' :: pre) ++ skipWs t from by
                rw [List.cons_append, ← hpre]]
              exact goodEnd_append_left _ this
        · simp only [parseVal, if_neg hq, if_neg hob, if_neg harr] at h
          by_cases hT : ("true".toList).isPrefixOf (c :: t)
          · rw [if_pos hT] at h
            simp only [Option.some.injEq, Prod.mk.injEq] at h
            obtain ⟨hv, hr⟩ := h
            subst hr
            obtain ⟨x2, hx2⟩ := List.isPrefixOf_iff_prefix.mp hT
            have hdrop : (c :: t).drop 4 = x2 := by
              rw [← hx2]; exact List.drop_left "true".toList x2
            rw [hdrop]
            obtain ⟨pre, hpre, hpws⟩ := skipWs_sound x2
            constructor
            · refine ⟨"true".toList ++ pre, ?_, by simp⟩
              rw [← hx2]
              simp only [List.append_assoc]
              rw [← hpre]
            · intro hrnil
              have hx2ws : ∀ e ∈ x2, jsonWsChar e = true := by
                intro e he
                rw [hpre] at he
                rcases List.mem_append.mp he with h2 | h2
                · exact hpws e h2
                · rw [hrnil] at h2; exact absurd h2 (by simp)
              rw [← hx2]
              exact goodEnd_build ['t', 'r', 'u'] 'e' hx2ws (by decide)
          · rw [if_neg hT] at h
            by_cases hF : ("false".toList).isPrefixOf (c :: t)
            · rw [if_pos hF] at h
              simp only [Option.some.injEq, Prod.mk.injEq] at h
              obtain ⟨hv, hr⟩ := h
              subst hr
              obtain ⟨x2, hx2⟩ := List.isPrefixOf_iff_prefix.mp hF
              have hdrop : (c :: t).drop 5 = x2 := by
                rw [← hx2]; exact List.drop_left "false".toList x2
              rw [hdrop]
              obtain ⟨pre, hpre, hpws⟩ := skipWs_sound x2
              constructor
              · refine ⟨"false".toList ++ pre, ?_, by simp⟩
                rw [← hx2]
                simp only [List.append_assoc]
                rw [← hpre]
              · intro hrnil
                have hx2ws : ∀ e ∈ x2, jsonWsChar e = true := by
                  intro e he
                  rw [hpre] at he
                  rcases List.mem_append.mp he with h2 | h2
                  · exact hpws e h2
                  · rw [hrnil] at h2; exact absurd h2 (by simp)
                rw [← hx2]
                exact goodEnd_build ['f', 'a', 'l', 's'] 'e' hx2ws (by decide)
            · rw [if_neg hF] at h
              by_cases hN : ("null".toList).isPrefixOf (c :: t)
              · rw [if_pos hN] at h
                simp only [Option.some.injEq, Prod.mk.injEq] at h
                obtain ⟨hv, hr⟩ := h
                subst hr
                obtain ⟨x2, hx2⟩ := List.isPrefixOf_iff_prefix.mp hN
                have hdrop : (c :: t).drop 4 = x2 := by
                  rw [← hx2]; exact List.drop_left "null".toList x2
                rw [hdrop]
                obtain ⟨pre, hpre, hpws⟩ := skipWs_sound x2
                constructor
                · refine ⟨"null".toList ++ pre, ?_, by simp⟩
                  rw [← hx2]
                  simp only [List.append_assoc]
                  rw [← hpre]
                · intro hrnil
                  have hx2ws : ∀ e ∈ x2, jsonWsChar e = true := by
                    intro e he
                    rw [hpre] at he
                    rcases List.mem_append.mp he with h2 | h2
                    · exact hpws e h2
                    · rw [hrnil] at h2; exact absurd h2 (by simp)
                  rw [← hx2]
                  exact goodEnd_build ['n', 'u', 'l'] 'l' hx2ws (by decide)
              · rw [if_neg hN] at h
                cases hnum : parseNumber (c :: t) with
                | none => rw [hnum] at h; exact absurd h (by simp)
                | some p =>
                  rw [hnum] at h
                  obtain ⟨q, r0⟩ := p
                  dsimp only at h
                  simp only [Option.some.injEq, Prod.mk.injEq] at h
                  obtain ⟨hv, hr⟩ := h
                  subst hr
                  obtain ⟨b, hbx, hbne, d, hdlast, hdig⟩ := parseNumber_sound hnum
                  obtain ⟨pre, hpre, hpws⟩ := skipWs_sound r0
                  constructor
                  · refine ⟨b ++ pre, ?_, by simp [hbne]⟩
                    rw [hbx]
                    simp only [List.append_assoc]
                    rw [← hpre]
                  · intro hrnil
                    have hr0ws : ∀ e ∈ r0, jsonWsChar e = true := all_ws_of_skipWs_nil hrnil
                    obtain ⟨binit, hbinit⟩ := List.getLast?_eq_some_iff.mp hdlast
                    rw [hbx, hbinit]
                    exact goodEnd_build binit d hr0ws (digit_not_jsWs hdig)

theorem soundA_step (n : Nat)
    (ihV : ∀ x v r, parseVal n x = some (v, r) →
      ((∃ cc, x = cc ++ r ∧ cc ≠ []) ∧ (r = [] → goodEnd x)))
    (ihAT : ∀ x vs r, parseArrTail n x = some (vs, r) →
      ((∃ cc, x = cc ++ r ∧ cc ≠ []) ∧ (r = [] → goodEnd x))) :
    ∀ x vs r, parseArrRest (n + 1) x = some (vs, r) →
      ((∃ cc, x = cc ++ r ∧ cc ≠ []) ∧ (r = [] → goodEnd x)) := by
  intro x vs r h
  match x with
  | [] => rw [parseArrRest_nil] at h; exact absurd h (by simp)
  | c :: t =>
    by_cases hrb : c = ']'
    · subst hrb
      simp only [parseArrRest, eq_self_iff_true, if_true, Option.some.injEq,
        Prod.mk.injEq] at h
      obtain ⟨hvs, hr⟩ := h
      subst hr
      obtain ⟨pre, hpre, hpws⟩ := skipWs_sound t
      constructor
      · refine ⟨']' :: pre, ?_, by simp⟩
        rw [List.cons_append, ← hpre]
      · intro hrnil
        have htws : ∀ e ∈ t, jsonWsChar e = true := by
          intro e he
          rw [hpre] at he
          rcases List.mem_append.mp he with h2 | h2
          · exact hpws e h2
          · rw [hrnil] at h2; exact absurd h2 (by simp)
        exact goodEnd_build [] ']' htws (by decide)
    · simp only [parseArrRest, if_neg hrb] at h
      cases hv : parseVal n (c :: t) with
      | none => rw [hv] at h; exact absurd h (by simp)
      | some p =>
        rw [hv] at h
        obtain ⟨v, r1⟩ := p
        dsimp only at h
        cases hat : parseArrTail n r1 with
        | none => rw [hat] at h; exact absurd h (by simp)
        | some p2 =>
          rw [hat] at h
          obtain ⟨vs2, r2⟩ := p2
          dsimp only at h
          simp only [Option.some.injEq, Prod.mk.injEq] at h
          obtain ⟨hvs, hr⟩ := h
          subst hr
          obtain ⟨⟨cc1, hcc1, hne1⟩, _⟩ := ihV (c :: t) v r1 hv
          obtain ⟨⟨cc2, hcc2, hne2⟩, hend2⟩ := ihAT r1 vs2 r2 hat
          constructor
          · exact ⟨cc1 ++ cc2, by rw [hcc1, hcc2]; simp, by simp [hne1]⟩
          · intro hrnil
            rw [hcc1]
            exact goodEnd_append_left _ (hend2 hrnil)

theorem soundAT_step (n : Nat)
    (ihV : ∀ x v r, parseVal n x = some (v, r) →
      ((∃ cc, x = cc ++ r ∧ cc ≠ []) ∧ (r = [] → goodEnd x)))
    (ihAT : ∀ x vs r, parseArrTail n x = some (vs, r) →
      ((∃ cc, x = cc ++ r ∧ cc ≠ []) ∧ (r = [] → goodEnd x))) :
    ∀ x vs r, parseArrTail (n + 1) x = some (vs, r) →
      ((∃ cc, x = cc ++ r ∧ cc ≠ []) ∧ (r = [] → goodEnd x)) := by
  intro x vs r h
  match x with
  | [] => rw [parseArrTail_nil] at h; exact absurd h (by simp)
  | c :: t =>
    by_cases hrb : c = ']'
    · subst hrb
      simp only [parseArrTail, eq_self_iff_true, if_true, Option.some.injEq,
        Prod.mk.injEq] at h
      obtain ⟨hvs, hr⟩ := h
      subst hr
      obtain ⟨pre, hpre, hpws⟩ := skipWs_sound t
      constructor
      · refine ⟨']' :: pre, ?_, by simp⟩
        rw [List.cons_append, ← hpre]
      · intro hrnil
        have htws : ∀ e ∈ t, jsonWsChar e = true := by
          intro e he
          rw [hpre] at he
          rcases List.mem_append.mp he with h2 | h2
          · exact hpws e h2
          · rw [hrnil] at h2; exact absurd h2 (by simp)
        exact goodEnd_build [] ']' htws (by decide)
    · by_cases hcm : c = ','
      · subst hcm
        simp only [parseArrTail, if_neg hrb, eq_self_iff_true, if_true] at h
        cases hv : parseVal n (skipWs t) with
        | none => rw [hv] at h; exact absurd h (by simp)
        | some p =>
          rw [hv] at h
          obtain ⟨v, r1⟩ := p
          dsimp only at h
          cases hat : parseArrTail n r1 with
          | none => rw [hat] at h; exact absurd h (by simp)
          | some p2 =>
            rw [hat] at h
            obtain ⟨vs2, r2⟩ := p2
            dsimp only at h
            simp only [Option.some.injEq, Prod.mk.injEq] at h
            obtain ⟨hvs, hr⟩ := h
            subst hr
            obtain ⟨⟨cc1, hcc1, hne1⟩, _⟩ := ihV (skipWs t) v r1 hv
            obtain ⟨⟨cc2, hcc2, hne2⟩, hend2⟩ := ihAT r1 vs2 r2 hat
            obtain ⟨pre, hpre, hpws⟩ := skipWs_sound t
            constructor
            · refine ⟨',' :: pre ++ cc1 ++ cc2, ?_, by simp⟩
              rw [show (t : List Char) = pre ++ skipWs t from hpre, hcc1, hcc2]
              simp
            · intro hrnil
              rw [show (',' :: t) = (',' :: pre) ++ skipWs t from by
                rw [List.cons_append, ← hpre]]
              refine goodEnd_append_left _ ?_
              rw [hcc1]
              exact goodEnd_append_left _ (hend2 hrnil)
      · simp only [parseArrTail, if_neg hrb, if_neg hcm] at h
        exact absurd h (by simp)

theorem soundO_step (n : Nat)
    (ihV : ∀ x v r, parseVal n x = some (v, r) →
      ((∃ cc, x = cc ++ r ∧ cc ≠ []) ∧ (r = [] → goodEnd x)))
    (ihOT : ∀ x ms r, parseObjTail n x = some (ms, r) →
      ((∃ cc, x = cc ++ r ∧ cc ≠ []) ∧ (r = [] → goodEnd x))) :
    ∀ x ms r, parseObjRest (n + 1) x = some (ms, r) →
      ((∃ cc, x = cc ++ r ∧ cc ≠ []) ∧ (r = [] → goodEnd x)) := by
  intro x ms r h
  match x with
  | [] => rw [parseObjRest_nil] at h; exact absurd h (by simp)
  | c :: t =>
    by_cases hrb : c = '}'
    · subst hrb
      simp only [parseObjRest, eq_self_iff_true, if_true, Option.some.injEq,
        Prod.mk.injEq] at h
      obtain ⟨hms, hr⟩ := h
      subst hr
      obtain ⟨pre, hpre, hpws⟩ := skipWs_sound t
      constructor
      · refine ⟨'}' :: pre, ?_, by simp⟩
        rw [List.cons_append, ← hpre]
      · intro hrnil
        have htws : ∀ e ∈ t, jsonWsChar e = true := by
          intro e he
          rw [hpre] at he
          rcases List.mem_append.mp he with h2 | h2
          · exact hpws e h2
          · rw [hrnil] at h2; exact absurd h2 (by simp)
        exact goodEnd_build [] '}' htws (by decide)
    · by_cases hq : c = '"'
      · subst hq
        simp only [parseObjRest, if_neg hrb, eq_self_iff_true, if_true] at h
        cases hsb : parseStrBody t with
        | none => rw [hsb] at h; exact absurd h (by simp)
        | some p =>
          rw [hsb] at h
          obtain ⟨k, r0⟩ := p
          dsimp only at h
          match hsk : skipWs r0, h with
          | [], h => exact absurd h (by simp)
          | c2 :: r2, h =>
            dsimp only at h
            by_cases hcol : c2 = ':'
            · rw [if_pos hcol] at h
              cases hv : parseVal n (skipWs r2) with
              | none => rw [hv] at h; exact absurd h (by simp)
              | some p2 =>
                rw [hv] at h
                obtain ⟨v, r3⟩ := p2
                dsimp only at h
                cases hot : parseObjTail n r3 with
                | none => rw [hot] at h; exact absurd h (by simp)
                | some p3 =>
                  rw [hot] at h
                  obtain ⟨ms2, r4⟩ := p3
                  dsimp only at h
                  simp only [Option.some.injEq, Prod.mk.injEq] at h
                  obtain ⟨hms, hr⟩ := h
                  subst hr
                  obtain ⟨body, hbt, hbne, hblast⟩ := parseStrBody_sound hsb
                  obtain ⟨pre0, hpre0, _⟩ := skipWs_sound r0
                  obtain ⟨pre2, hpre2, _⟩ := skipWs_sound r2
                  obtain ⟨⟨cc1, hcc1, hne1⟩, _⟩ := ihV (skipWs r2) v r3 hv
                  obtain ⟨⟨cc2, hcc2, hne2⟩, hend2⟩ := ihOT r3 ms2 r4 hot
                  have hxdec : '"' :: t =
                      ('"' :: body ++ pre0 ++ [c2] ++ pre2 ++ cc1 ++ cc2) ++ r4 := by
                    rw [hbt]
                    have : r0 = pre0 ++ (c2 :: r2) := by rw [hpre0, hsk]
                    rw [this]
                    have : r2 = pre2 ++ skipWs r2 := hpre2
                    rw [this, hcc1, hcc2]
                    simp
                  constructor
                  · exact ⟨_, hxdec, by simp⟩
                  · intro hrnil
                    rw [show ('"' :: t) =
                      ('"' :: body ++ pre0 ++ [c2] ++ pre2 ++ cc1) ++ r3 from by
                        rw [hbt]
                        rw [show r0 = pre0 ++ (c2 :: r2) from by rw [hpre0, hsk]]
                        rw [show r2 = pre2 ++ skipWs r2 from hpre2, hcc1]
                        simp]
                    exact goodEnd_append_left _ (hend2 hrnil)
            · rw [if_neg hcol] at h
              exact absurd h (by simp)
      · simp only [parseObjRest, if_neg hrb, if_neg hq] at h
        exact absurd h (by simp)

theorem soundOT_step (n : Nat)
    (ihV : ∀ x v r, parseVal n x = some (v, r) →
      ((∃ cc, x = cc ++ r ∧ cc ≠ []) ∧ (r = [] → goodEnd x)))
    (ihOT : ∀ x ms r, parseObjTail n x = some (ms, r) →
      ((∃ cc, x = cc ++ r ∧ cc ≠ []) ∧ (r = [] → goodEnd x))) :
    ∀ x ms r, parseObjTail (n + 1) x = some (ms, r) →
      ((∃ cc, x = cc ++ r ∧ cc ≠ []) ∧ (r = [] → goodEnd x)) := by
  intro x ms r h
  match x with
  | [] => rw [parseObjTail_nil] at h; exact absurd h (by simp)
  | c :: t =>
    by_cases hrb : c = '}'
    · subst hrb
      simp only [parseObjTail, eq_self_iff_true, if_true, Option.some.injEq,
        Prod.mk.injEq] at h
      obtain ⟨hms, hr⟩ := h
      subst hr
      obtain ⟨pre, hpre, hpws⟩ := skipWs_sound t
      constructor
      · refine ⟨'}' :: pre, ?_, by simp⟩
        rw [List.cons_append, ← hpre]
      · intro hrnil
        have htws : ∀ e ∈ t, jsonWsChar e = true := by
          intro e he
          rw [hpre] at he
          rcases List.mem_append.mp he with h2 | h2
          · exact hpws e h2
          · rw [hrnil] at h2; exact absurd h2 (by simp)
        exact goodEnd_build [] '}' htws (by decide)
    · by_cases hcm : c = ','
      · subst hcm
        simp only [parseObjTail, if_neg hrb, eq_self_iff_true, if_true] at h
        match hsk0 : skipWs t, h with
        | [], h => exact absurd h (by simp)
        | c1 :: t2, h =>
          dsimp only at h
          by_cases hq : c1 = '"'
          · rw [if_pos hq] at h
            cases hsb : parseStrBody t2 with
            | none => rw [hsb] at h; exact absurd h (by simp)
            | some p =>
              rw [hsb] at h
              obtain ⟨k, r0⟩ := p
              dsimp only at h
              match hsk : skipWs r0, h with
              | [], h => exact absurd h (by simp)
              | c2 :: r2, h =>
                dsimp only at h
                by_cases hcol : c2 = ':'
                · rw [if_pos hcol] at h
                  cases hv : parseVal n (skipWs r2) with
                  | none => rw [hv] at h; exact absurd h (by simp)
                  | some p2 =>
                    rw [hv] at h
                    obtain ⟨v, r3⟩ := p2
                    dsimp only at h
                    cases hot : parseObjTail n r3 with
                    | none => rw [hot] at h; exact absurd h (by simp)
                    | some p3 =>
                      rw [hot] at h
                      obtain ⟨ms2, r4⟩ := p3
                      dsimp only at h
                      simp only [Option.some.injEq, Prod.mk.injEq] at h
                      obtain ⟨hms, hr⟩ := h
                      subst hr
                      obtain ⟨body, hbt, hbne, hblast⟩ := parseStrBody_sound hsb
                      obtain ⟨pre1, hpre1, _⟩ := skipWs_sound t
                      obtain ⟨pre0, hpre0, _⟩ := skipWs_sound r0
                      obtain ⟨pre2, hpre2, _⟩ := skipWs_sound r2
                      obtain ⟨⟨cc1, hcc1, hne1⟩, _⟩ := ihV (skipWs r2) v r3 hv
                      obtain ⟨⟨cc2, hcc2, hne2⟩, hend2⟩ := ihOT r3 ms2 r4 hot
                      have hxdec : ',' :: t =
                          (',' :: pre1 ++ [c1] ++ body ++ pre0 ++ [c2] ++ pre2 ++
                            cc1 ++ cc2) ++ r4 := by
                        rw [show (t : List Char) = pre1 ++ (c1 :: t2) from by
                          rw [hpre1, hsk0]]
                        rw [show (t2 : List Char) = body ++ r0 from hbt]
                        rw [show r0 = pre0 ++ (c2 :: r2) from by rw [hpre0, hsk]]
                        rw [show r2 = pre2 ++ skipWs r2 from hpre2, hcc1, hcc2]
                        simp
                      constructor
                      · exact ⟨_, hxdec, by simp⟩
                      · intro hrnil
                        rw [show (',' :: t) =
                          (',' :: pre1 ++ [c1] ++ body ++ pre0 ++ [c2] ++ pre2 ++ cc1)
                            ++ r3 from by
                          rw [show (t : List Char) = pre1 ++ (c1 :: t2) from by
                            rw [hpre1, hsk0]]
                          rw [show (t2 : List Char) = body ++ r0 from hbt]
                          rw [show r0 = pre0 ++ (c2 :: r2) from by rw [hpre0, hsk]]
                          rw [show r2 = pre2 ++ skipWs r2 from hpre2, hcc1]
                          simp]
                        exact goodEnd_append_left _ (hend2 hrnil)
                · rw [if_neg hcol] at h
                  exact absurd h (by simp)
          · rw [if_neg hq] at h
            exact absurd h (by simp)
      · simp only [parseObjTail, if_neg hrb, if_neg hcm] at h
        exact absurd h (by simp)

theorem parseSoundAll :
    ∀ fuel : Nat,
      (∀ x v r, parseVal fuel x = some (v, r) →
        ((∃ cc, x = cc ++ r ∧ cc ≠ []) ∧ (r = [] → goodEnd x))) ∧
      (∀ x vs r, parseArrRest fuel x = some (vs, r) →
        ((∃ cc, x = cc ++ r ∧ cc ≠ []) ∧ (r = [] → goodEnd x))) ∧
      (∀ x vs r, parseArrTail fuel x = some (vs, r) →
        ((∃ cc, x = cc ++ r ∧ cc ≠ []) ∧ (r = [] → goodEnd x))) ∧
      (∀ x ms r, parseObjRest fuel x = some (ms, r) →
        ((∃ cc, x = cc ++ r ∧ cc ≠ []) ∧ (r = [] → goodEnd x))) ∧
      (∀ x ms r, parseObjTail fuel x = some (ms, r) →
        ((∃ cc, x = cc ++ r ∧ cc ≠ []) ∧ (r = [] → goodEnd x))) := by
  intro fuel
  induction fuel with
  | zero =>
    refine ⟨?_, ?_, ?_, ?_, ?_⟩ <;> intro x a r h <;> exact absurd h (by simp [parseVal,
      parseArrRest, parseArrTail, parseObjRest, parseObjTail])
  | succ n ih =>
    obtain ⟨ihV, ihA, ihAT, ihO, ihOT⟩ := ih
    exact ⟨soundV_step n ihA ihO, soundA_step n ihV ihAT, soundAT_step n ihV ihAT,
      soundO_step n ihV ihOT, soundOT_step n ihV ihOT⟩



theorem skipWs_length_le (x : List Char) : (skipWs x).length ≤ x.length := by
  obtain ⟨pre, hpre, _⟩ := skipWs_sound x
  have h := congrArg List.length hpre
  simp only [List.length_append] at h
  omega

theorem parseVal_rest_lt (f : Nat) (x : List Char) (v : Json) (r : List Char)
    (h : parseVal f x = some (v, r)) : r.length < x.length := by
  obtain ⟨⟨cc, hcc, hne⟩, _⟩ := (parseSoundAll f).1 x v r h
  have hl := congrArg List.length hcc
  simp only [List.length_append] at hl
  have hp : 0 < cc.length := List.length_pos.mpr hne
  omega

theorem parseStrBody_rest_lt (t k r : List Char)
    (h : parseStrBody t = some (k, r)) : r.length < t.length := by
  obtain ⟨body, hbt, hbne, _⟩ := parseStrBody_sound h
  have hl := congrArg List.length hbt
  simp only [List.length_append] at hl
  have hp : 0 < body.length := List.length_pos.mpr hbne
  omega

theorem fuelV_step (n : Nat)
    (ihA : ∀ g x, 2 * List.length x + 1 < n → 2 * List.length x + 1 < g →
      parseArrRest n x = parseArrRest g x)
    (ihO : ∀ g x, 2 * List.length x + 1 < n → 2 * List.length x + 1 < g →
      parseObjRest n x = parseObjRest g x) :
    ∀ g x, 2 * List.length x < n + 1 → 2 * List.length x < g + 1 →
      parseVal (n + 1) x = parseVal (g + 1) x := by
  intro g x h1 h2
  match x with
  | [] => rw [parseVal_nil, parseVal_nil]
  | c :: t =>
    simp only [List.length_cons] at h1 h2
    have hsw := skipWs_length_le t
    by_cases hq : c = '"'
    · simp only [parseVal, if_pos hq]
    · by_cases hob : c = '{'
      · simp only [parseVal, if_neg hq, if_pos hob]
        rw [ihO g (skipWs t) (by omega) (by omega)]
      · by_cases harr : c = '['
        · simp only [parseVal, if_neg hq, if_neg hob, if_pos harr]
          rw [ihA g (skipWs t) (by omega) (by omega)]
        · simp only [parseVal, if_neg hq, if_neg hob, if_neg harr]

theorem fuelA_step (n : Nat)
    (ihV : ∀ g x, 2 * List.length x < n → 2 * List.length x < g →
      parseVal n x = parseVal g x)
    (ihAT : ∀ g x, 2 * List.length x + 1 < n → 2 * List.length x + 1 < g →
      parseArrTail n x = parseArrTail g x) :
    ∀ g x, 2 * List.length x + 1 < n + 1 → 2 * List.length x + 1 < g + 1 →
      parseArrRest (n + 1) x = parseArrRest (g + 1) x := by
  intro g x h1 h2
  match x with
  | [] => rw [parseArrRest_nil, parseArrRest_nil]
  | c :: t =>
    simp only [List.length_cons] at h1 h2
    by_cases hrb : c = ']'
    · simp only [parseArrRest, if_pos hrb]
    · simp only [parseArrRest, if_neg hrb]
      rw [ihV g (c :: t) (by simp only [List.length_cons]; omega)
        (by simp only [List.length_cons]; omega)]
      cases hv : parseVal g (c :: t) with
      | none => rfl
      | some p =>
        obtain ⟨v, r⟩ := p
        have hrl := parseVal_rest_lt g (c :: t) v r hv
        simp only [List.length_cons] at hrl
        dsimp only
        rw [ihAT g r (by omega) (by omega)]

theorem fuelAT_step (n : Nat)
    (ihV : ∀ g x, 2 * List.length x < n → 2 * List.length x < g →
      parseVal n x = parseVal g x)
    (ihAT : ∀ g x, 2 * List.length x + 1 < n → 2 * List.length x + 1 < g →
      parseArrTail n x = parseArrTail g x) :
    ∀ g x, 2 * List.length x + 1 < n + 1 → 2 * List.length x + 1 < g + 1 →
      parseArrTail (n + 1) x = parseArrTail (g + 1) x := by
  intro g x h1 h2
  match x with
  | [] => rw [parseArrTail_nil, parseArrTail_nil]
  | c :: t =>
    simp only [List.length_cons] at h1 h2
    have hsw := skipWs_length_le t
    by_cases hrb : c = ']'
    · simp only [parseArrTail, if_pos hrb]
    · by_cases hcm : c = ','
      · simp only [parseArrTail, if_neg hrb, if_pos hcm]
        rw [ihV g (skipWs t) (by omega) (by omega)]
        cases hv : parseVal g (skipWs t) with
        | none => rfl
        | some p =>
          obtain ⟨v, r⟩ := p
          have hrl := parseVal_rest_lt g (skipWs t) v r hv
          dsimp only
          rw [ihAT g r (by omega) (by omega)]
      · simp only [parseArrTail, if_neg hrb, if_neg hcm]

theorem fuelO_step (n : Nat)
    (ihV : ∀ g x, 2 * List.length x < n → 2 * List.length x < g →
      parseVal n x = parseVal g x)
    (ihOT : ∀ g x, 2 * List.length x + 1 < n → 2 * List.length x + 1 < g →
      parseObjTail n x = parseObjTail g x) :
    ∀ g x, 2 * List.length x + 1 < n + 1 → 2 * List.length x + 1 < g + 1 →
      parseObjRest (n + 1) x = parseObjRest (g + 1) x := by
  intro g x h1 h2
  match x with
  | [] => rw [parseObjRest_nil, parseObjRest_nil]
  | c :: t =>
    simp only [List.length_cons] at h1 h2
    by_cases hrb : c = '}'
    · simp only [parseObjRest, if_pos hrb]
    · by_cases hq : c = '"'
      · simp only [parseObjRest, if_neg hrb, if_pos hq]
        cases hsb : parseStrBody t with
        | none => rfl
        | some p =>
          obtain ⟨k, r0⟩ := p
          have hr0 := parseStrBody_rest_lt t k r0 hsb
          have hsw0 := skipWs_length_le r0
          dsimp only
          cases hsk : skipWs r0 with
          | nil => rfl
          | cons c2 r2 =>
            have hskl := congrArg List.length hsk
            simp only [List.length_cons] at hskl
            have hsw2 := skipWs_length_le r2
            by_cases hcol : c2 = ':'
            · simp only [if_pos hcol]
              rw [ihV g (skipWs r2) (by omega) (by omega)]
              cases hv : parseVal g (skipWs r2) with
              | none => rfl
              | some p2 =>
                obtain ⟨v, r3⟩ := p2
                have hr3 := parseVal_rest_lt g (skipWs r2) v r3 hv
                dsimp only
                rw [ihOT g r3 (by omega) (by omega)]
            · simp only [if_neg hcol]
      · simp only [parseObjRest, if_neg hrb, if_neg hq]

theorem fuelOT_step (n : Nat)
    (ihV : ∀ g x, 2 * List.length x < n → 2 * List.length x < g →
      parseVal n x = parseVal g x)
    (ihOT : ∀ g x, 2 * List.length x + 1 < n → 2 * List.length x + 1 < g →
      parseObjTail n x = parseObjTail g x) :
    ∀ g x, 2 * List.length x + 1 < n + 1 → 2 * List.length x + 1 < g + 1 →
      parseObjTail (n + 1) x = parseObjTail (g + 1) x := by
  intro g x h1 h2
  match x with
  | [] => rw [parseObjTail_nil, parseObjTail_nil]
  | c :: t =>
    simp only [List.length_cons] at h1 h2
    have hswt := skipWs_length_le t
    by_cases hrb : c = '}'
    · simp only [parseObjTail, if_pos hrb]
    · by_cases hcm : c = ','
      · simp only [parseObjTail, if_neg hrb, if_pos hcm]
        cases hskt : skipWs t with
        | nil => rfl
        | cons c1 t2 =>
          have hsktl := congrArg List.length hskt
          simp only [List.length_cons] at hsktl
          by_cases hq : c1 = '"'
          · simp only [if_pos hq]
            cases hsb : parseStrBody t2 with
            | none => rfl
            | some p =>
              obtain ⟨k, r0⟩ := p
              have hr0 := parseStrBody_rest_lt t2 k r0 hsb
              have hsw0 := skipWs_length_le r0
              dsimp only
              cases hsk : skipWs r0 with
              | nil => rfl
              | cons c2 r2 =>
                have hskl := congrArg List.length hsk
                simp only [List.length_cons] at hskl
                have hsw2 := skipWs_length_le r2
                by_cases hcol : c2 = ':'
                · simp only [if_pos hcol]
                  rw [ihV g (skipWs r2) (by omega) (by omega)]
                  cases hv : parseVal g (skipWs r2) with
                  | none => rfl
                  | some p2 =>
                    obtain ⟨v, r3⟩ := p2
                    have hr3 := parseVal_rest_lt g (skipWs r2) v r3 hv
                    dsimp only
                    rw [ihOT g r3 (by omega) (by omega)]
                · simp only [if_neg hcol]
          · simp only [if_neg hq]
      · simp only [parseObjTail, if_neg hrb, if_neg hcm]

theorem parseFuelAll :
    ∀ n : Nat,
      (∀ g x, 2 * List.length x < n → 2 * List.length x < g →
        parseVal n x = parseVal g x) ∧
      (∀ g x, 2 * List.length x + 1 < n → 2 * List.length x + 1 < g →
        parseArrRest n x = parseArrRest g x) ∧
      (∀ g x, 2 * List.length x + 1 < n → 2 * List.length x + 1 < g →
        parseArrTail n x = parseArrTail g x) ∧
      (∀ g x, 2 * List.length x + 1 < n → 2 * List.length x + 1 < g →
        parseObjRest n x = parseObjRest g x) ∧
      (∀ g x, 2 * List.length x + 1 < n → 2 * List.length x + 1 < g →
        parseObjTail n x = parseObjTail g x) := by
  intro n
  induction n with
  | zero =>
    refine ⟨?_, ?_, ?_, ?_, ?_⟩ <;> intro g x h1 h2 <;> exact absurd h1 (by omega)
  | succ n ih =>
    obtain ⟨ihV, ihA, ihAT, ihO, ihOT⟩ := ih
    refine ⟨?_, ?_, ?_, ?_, ?_⟩ <;> intro g x h1 h2 <;>
      cases g with
      | zero => exact absurd h2 (by omega)
      | succ g => ?_
    · exact fuelV_step n ihA ihO g x h1 h2
    · exact fuelA_step n ihV ihAT g x h1 h2
    · exact fuelAT_step n ihV ihAT g x h1 h2
    · exact fuelO_step n ihV ihOT g x h1 h2
    · exact fuelOT_step n ihV ihOT g x h1 h2

theorem dropWhile_all_append (p : Char → Bool) (pre rest : List Char)
    (hpre : ∀ c ∈ pre, p c = true) :
    List.dropWhile p (pre ++ rest) = List.dropWhile p rest := by
  induction pre with
  | nil => rfl
  | cons a l ih =>
    rw [List.cons_append, List.dropWhile_cons, if_pos (hpre a (List.mem_cons_self a l))]
    exact ih fun c hc => hpre c (List.mem_cons_of_mem a hc)

theorem parseNumber_head (c : Char) (t : List Char) (p : ℚ × List Char)
    (h : parseNumber (c :: t) = some p) : c = '-' ∨ isDigitChar c = true := by
  by_cases hm : c = '-'
  · exact Or.inl hm
  · right
    by_cases hd : isDigitChar c = true
    · exact hd
    · exfalso
      have hd' : isDigitChar c = false := by
        cases hdc : isDigitChar c with
        | false => rfl
        | true => exact absurd hdc hd
      have h0 : ¬ c = '0' := by
        intro h0
        rw [h0] at hd'
        exact absurd hd' (by decide)
      have hpd : parseDigits (c :: t) = none := by
        simp [parseDigits, List.takeWhile_cons, hd']
      have hip : parseIntPart (c :: t) = none := by
        simp only [parseIntPart, if_neg h0, hpd]
      simp only [parseNumber, if_neg hm, parseNumBody, hip] at h
      exact absurd h (by simp)

theorem parseVal_head (fuel : Nat) (c : Char) (t : List Char) (p : Json × List Char)
    (h : parseVal fuel (c :: t) = some p) : jsWsChar c = false := by
  match fuel with
  | 0 => exact absurd h (by simp [parseVal])
  | Nat.succ n =>
    by_cases hq : c = '"'
    · subst hq; decide
    · by_cases hob : c = '{'
      · subst hob; decide
      · by_cases harr : c = '['
        · subst harr; decide
        · simp only [parseVal, if_neg hq, if_neg hob, if_neg harr] at h
          by_cases hT : ("true".toList).isPrefixOf (c :: t)
          · obtain ⟨s2, hs2⟩ := List.isPrefixOf_iff_prefix.mp hT
            rw [show "true".toList = 't' :: ['r', 'u', 'e'] from rfl,
              List.cons_append] at hs2
            injection hs2 with h1 h2
            rw [← h1]; decide
          · by_cases hF : ("false".toList).isPrefixOf (c :: t)
            · obtain ⟨s2, hs2⟩ := List.isPrefixOf_iff_prefix.mp hF
              rw [show "false".toList = 'f' :: ['a', 'l', 's', 'e'] from rfl,
                List.cons_append] at hs2
              injection hs2 with h1 h2
              rw [← h1]; decide
            · by_cases hN : ("null".toList).isPrefixOf (c :: t)
              · obtain ⟨s2, hs2⟩ := List.isPrefixOf_iff_prefix.mp hN
                rw [show "null".toList = 'n' :: ['u', 'l', 'l'] from rfl,
                  List.cons_append] at hs2
                injection hs2 with h1 h2
                rw [← h1]; decide
              · simp only [if_neg hT, if_neg hF, if_neg hN] at h
                cases hnum : parseNumber (c :: t) with
                | none => rw [hnum] at h; exact absurd h (by simp)
                | some pq =>
                  rcases parseNumber_head c t pq hnum with hm | hd
                  · subst hm; decide
                  · exact digit_not_jsWs hd

theorem jsonParse_jsTrim (s : List Char) (v : Json) (h : jsonParse s = some v) :
    jsonParse (jsTrim s) = some v := by
  simp only [jsonParse] at h
  cases hv : parseVal (2 * s.length + 1) (skipWs s) with
  | none => rw [hv] at h; exact absurd h (by simp)
  | some p =>
    rw [hv] at h
    obtain ⟨v0, r⟩ := p
    dsimp only at h
    by_cases hr : r.isEmpty
    · rw [if_pos hr] at h
      have hrnil : r = [] := by simpa [List.isEmpty_iff] using hr
      subst hrnil
      have hv0 : v0 = v := by simpa using h
      rw [hv0] at hv
      obtain ⟨-, hge⟩ := (parseSoundAll (2 * s.length + 1)).1 (skipWs s) v [] hv
      obtain ⟨y, cE, z, hu, hz, hcE⟩ := hge rfl
      have hu' : skipWs s = (y ++ [cE]) ++ z := by rw [hu]
      have hshift := ((parseShiftAll hz (2 * s.length + 1)).1 (y ++ [cE]))
      rw [hu', hshift] at hv
      cases hvc : parseVal (2 * s.length + 1) (y ++ [cE]) with
      | none => rw [hvc] at hv; exact absurd hv (by simp)
      | some pc =>
        rw [hvc] at hv
        obtain ⟨v2, r2⟩ := pc
        simp only [Option.map_some'] at hv
        have hv2 : v2 = v ∧ addTail z r2 = [] := by simpa using hv
        obtain ⟨hv2, hat⟩ := hv2
        rw [hv2] at hvc
        have hr2 : r2 = [] := by
          by_contra hne
          rw [addTail, if_neg hne] at hat
          exact hne (List.append_eq_nil.mp hat).1
        subst hr2
        obtain ⟨c0, t0, hct⟩ : ∃ c0 t0, y ++ [cE] = c0 :: t0 := by
          cases y with
          | nil => exact ⟨cE, [], rfl⟩
          | cons a b => exact ⟨a, b ++ [cE], rfl⟩
        have hhead : jsWsChar c0 = false := by
          refine parseVal_head (2 * s.length + 1) c0 t0 (v, []) ?_
          rw [← hct]; exact hvc
        obtain ⟨pre, hpres, hprews⟩ := skipWs_sound s
        have hdrop1 : s.dropWhile jsWsChar = (c0 :: t0) ++ z := by
          rw [show (s : List Char) = pre ++ ((y ++ [cE]) ++ z) from by rw [hpres, hu']]
          rw [dropWhile_all_append jsWsChar pre _ fun c hc => jsonWs_jsWs (hprews c hc)]
          rw [hct, List.cons_append, List.dropWhile_cons, if_neg (by simp [hhead])]
        have htrim : jsTrim s = y ++ [cE] := by
          simp only [jsTrim]
          rw [hdrop1, ← hct, List.reverse_append]
          rw [dropWhile_all_append jsWsChar z.reverse _
            fun c hc => jsonWs_jsWs (hz c (List.mem_reverse.mp hc))]
          rw [show (y ++ [cE]).reverse = cE :: y.reverse from by simp]
          rw [List.dropWhile_cons, if_neg (by simp [hcE])]
          simp
        rw [htrim]
        simp only [jsonParse]
        have hskipcore : skipWs (y ++ [cE]) = y ++ [cE] := by
          rw [hct]
          refine skipWs_cons_of_not t0 ?_
          cases hjc : jsonWsChar c0 with
          | false => rfl
          | true => rw [jsonWs_jsWs hjc] at hhead; exact absurd hhead (by simp)
        rw [hskipcore]
        have hlenu : (skipWs s).length ≤ s.length := skipWs_length_le s
        have hlencore : (y ++ [cE]).length + z.length = (skipWs s).length := by
          have h2 := congrArg List.length hu'
          simp only [List.length_append] at h2 ⊢
          omega
        have hfuel := (parseFuelAll (2 * (y ++ [cE]).length + 1)).1 (2 * s.length + 1)
          (y ++ [cE]) (by omega) (by omega)
        rw [hfuel, hvc]
        simp
    · rw [if_neg hr] at h; exact absurd h (by simp)

theorem parseInvoice_jsTrim (s : List Char) (r : Invoice) (h : parseInvoice s = some r) :
    parseInvoice (jsTrim s) = some r := by
  simp only [parseInvoice] at h ⊢
  cases hj : jsonParse s with
  | none => rw [hj] at h; exact absurd h (by simp)
  | some v =>
    rw [hj] at h
    rw [jsonParse_jsTrim s v hj]
    exact h

/-- C10 counterexample: a model response consisting of a valid invoice
object followed by a no-break space.  The parse of the fence-stripped
content fails (U+00A0 is not JSON whitespace), while the parse of the
trimmed content succeeds, so the two parses do not yield equal records
whenever either succeeds. -/
theorem parse_trim_cex :
    parseInvoice (stripFences contentNbsp.toList) = none ∧
    parseInvoice (jsTrim (stripFences contentNbsp.toList)) =
      some ⟨"INV-3", "2023-05-01", "Vendor", 100, "USD"⟩ := by
  constructor
  · with_unfolding_all decide
  · with_unfolding_all decide

/-- C10 (amended): whenever the parse of the fence-stripped content
(`rawInv`) succeeds, the parse of the trimmed content (`inv`) succeeds
and yields the same record, because `JSON.parse` already ignores
surrounding JSON whitespace and `trim` only removes further characters
that keep a successful parse intact; hence the stored vendor, invoice
number, amount and currency (from `rawInv`) and the stored date and tax
year (from `inv.date`) all come from one consistent record.  The
converse direction of the original claim is false: the trimmed parse
can succeed where the raw parse fails. -/
theorem parse_trim_agree (content : List Char) (rawInv : Invoice)
    (h : parseInvoice (stripFences content) = some rawInv) :
    parseInvoice (jsTrim (stripFences content)) = some rawInv :=
  parseInvoice_jsTrim _ _ h

theorem parse_trim_agree_witness :
    parseInvoice (stripFences contentGBP.toList) =
      some ⟨"INV-1", "2023-04-06", "Acme", 25/2, "GBP"⟩ ∧
    parseInvoice (jsTrim (stripFences contentGBP.toList)) =
      some ⟨"INV-1", "2023-04-06", "Acme", 25/2, "GBP"⟩ :=
  ⟨by with_unfolding_all decide,
   parse_trim_agree contentGBP.toList _ (by with_unfolding_all decide)⟩

theorem inserted_rowConsistent {L : List Row} {f : FileEnv} {row : Row}
    (h : (processFile L f).outcome = Outcome.inserted row) : rowConsistent row := by
  obtain ⟨hpres, content, rawInv, inv, hmc, h4, h5, hrow, hpf⟩ := processFile_inserted_inv h
  have hinv : inv = rawInv := by
    have h6 := parseInvoice_jsTrim _ rawInv h4
    rw [h5] at h6
    exact (Option.some.injEq _ _).mp h6
  rw [hinv] at hrow
  subst hrow
  simp [rowConsistent, mkRow]

theorem processFile_ledger_cases (L : List Row) (f : FileEnv) :
    (processFile L f).ledger = L ∨
    ∃ row, (processFile L f).ledger = L ++ [row] ∧
      (processFile L f).outcome = Outcome.inserted row := by
  by_cases hp : hashPresent L (fileHash f.bytes) = true
  · left; simp [processFile, hp]
  · cases hpt : f.pdfText with
    | none => left; simp [processFile, hp, hpt]
    | some text =>
      by_cases hg : text.data = [] ∨ (jsTrim text.data).length < 10
      · left; simp [processFile, hp, hpt, hg]
      · cases hmc : f.modelContent with
        | none => left; simp [processFile, hp, hpt, hg, hmc]
        | some content =>
          cases hp1 : parseInvoice (stripFences content.data) with
          | none => left; simp [processFile, hp, hpt, hg, hmc, hp1]
          | some rawInv =>
            cases hp2 : parseInvoice (jsTrim (stripFences content.data)) with
            | none => left; simp [processFile, hp, hpt, hg, hmc, hp1, hp2]
            | some inv =>
              right
              exact ⟨mkRow f rawInv inv,
                by simp [processFile, hp, hpt, hg, hmc, hp1, hp2],
                by simp [processFile, hp, hpt, hg, hmc, hp1, hp2]⟩

theorem runFiles_consistent (fs : List FileEnv) : ∀ (L : List Row) (a e : Nat)
    (ns : List Notif), (∀ r ∈ L, rowConsistent r) →
    ∀ r ∈ (runFiles L a e ns fs).1, rowConsistent r := by
  induction fs with
  | nil =>
    intro L a e ns hL r hr
    simp only [runFiles] at hr
    exact hL r hr
  | cons f fs ih =>
    intro L a e ns hL r hr
    have hstep : ∀ r2 ∈ (processFile L f).ledger, rowConsistent r2 := by
      rcases processFile_ledger_cases L f with hcase | ⟨row, hled, hout⟩
      · rw [hcase]; exact hL
      · rw [hled]
        intro r2 hr2
        rcases List.mem_append.mp hr2 with h2 | h2
        · exact hL r2 h2
        · rw [List.mem_singleton.mp h2]
          exact inserted_rowConsistent hout
    simp only [runFiles] at hr
    cases ho : (processFile L f).outcome with
    | skipped => rw [ho] at hr; exact ih _ _ _ _ hstep r hr
    | inserted r0 => rw [ho] at hr; exact ih _ _ _ _ hstep r hr
    | failed m => rw [ho] at hr; exact ih _ _ _ _ hstep r hr

/-- C7: every row of the ledger produced by a run satisfies the stored
identity `total_gbp = round2 (total_original * exchange_rate)`, provided
the rows already in the table do.  The identity is established at insert
time (the INSERT computes `total_gbp` as `round2` of the product, and
the amount taken from `rawInv` agrees with the one taken from `inv`
because the two parses agree), and it is preserved because the run only
ever appends rows, never mutating existing ones. -/
theorem ledger_rows_consistent (L : List Row) (files : List FileEnv)
    (hL : ∀ r ∈ L, rowConsistent r) :
    ∀ r ∈ (runTaxAutomation L files).ledger, rowConsistent r := by
  intro r hr
  simp only [runTaxAutomation] at hr
  exact runFiles_consistent files L 0 0 [] hL r hr

set_option maxRecDepth 100000 in
theorem ledger_rows_consistent_witness :
    rowConsistent ((runTaxAutomation [] [envGBP]).ledger.getD 0 sampleRow) :=
  ledger_rows_consistent [] [envGBP] (by intro r hr; exact absurd hr (by simp))
    ((runTaxAutomation [] [envGBP]).ledger.getD 0 sampleRow)
    (by with_unfolding_all decide)

set_option maxRecDepth 100000 in
/-- C3 counterexample: a GBP invoice whose amount has three decimal
places.  The ingested record's currency is GBP and the stored rate is
1, but the stored base amount (`round2` of the amount) differs from the
original amount, refuting the claimed `amountBase == amountOriginal`. -/
theorem gbp_base_amount_cex :
    (stepFresh envGBPthird).outcome =
      Outcome.inserted ((stepFresh envGBPthird).ledger.getD 0 sampleRow) ∧
    ((stepFresh envGBPthird).ledger.getD 0 sampleRow).currency = "GBP" ∧
    ((stepFresh envGBPthird).ledger.getD 0 sampleRow).exchange_rate = 1 ∧
    ((stepFresh envGBPthird).ledger.getD 0 sampleRow).total_gbp ≠
      ((stepFresh envGBPthird).ledger.getD 0 sampleRow).total_original := by
  refine ⟨?_, ?_, ?_, ?_⟩ <;> with_unfolding_all decide

/-- C3 (amended): for every inserted row whose stored currency code is
the base currency GBP (the stored code is the uppercased invoice code,
so this is the case-insensitive comparison the source performs), the
stored exchange rate is exactly 1, the rate fetch is never reached, and
the stored base amount is the original amount rounded to two decimal
places — not necessarily the original amount itself, which can carry
more precision. -/
theorem gbp_rate_one (L : List Row) (f : FileEnv) (row : Row)
    (h : (processFile L f).outcome = Outcome.inserted row)
    (hc : row.currency = "GBP") :
    row.exchange_rate = 1 ∧ (processFile L f).rateFetched = false ∧
    row.total_gbp = round2 row.total_original := by
  obtain ⟨hpres, content, rawInv, inv, hmc, h4, h5, hrow, hpf⟩ := processFile_inserted_inv h
  have hinv : inv = rawInv := by
    have h6 := parseInvoice_jsTrim _ rawInv h4
    rw [h5] at h6
    exact (Option.some.injEq _ _).mp h6
  rw [hinv] at hrow hpf
  subst hrow
  simp only [mkRow] at hc ⊢
  refine ⟨?_, ?_, ?_⟩
  · rw [getExchangeRateToGBP.eq_def, if_pos hc]
    rfl
  · rw [hpf]
    simp [rateFetchCalled, hc]
  · rw [getExchangeRateToGBP.eq_def, if_pos hc]
    simp

theorem gbp_rate_one_witness :
    ((stepFresh envGBP).ledger.getD 0 sampleRow).exchange_rate = 1 ∧
    (stepFresh envGBP).rateFetched = false ∧
    ((stepFresh envGBP).ledger.getD 0 sampleRow).total_gbp =
      round2 ((stepFresh envGBP).ledger.getD 0 sampleRow).total_original :=
  gbp_rate_one [] envGBP ((stepFresh envGBP).ledger.getD 0 sampleRow)
    (by with_unfolding_all decide) (by with_unfolding_all decide)

theorem hashPresent_append (L M : List Row) (h : List Nat) :
    hashPresent (L ++ M) h = (hashPresent L h || hashPresent M h) := by
  simp [hashPresent, List.any_append]

theorem errNotifCount_append (ns ms : List Notif) :
    errNotifCount (ns ++ ms) = errNotifCount ns + errNotifCount ms := by
  simp [errNotifCount, List.filter_append]

theorem processFile_fresh_shift (L : List Row) (f : FileEnv)
    (h : hashPresent L (fileHash f.bytes) = false) :
    processFile L f = ⟨L ++ (stepFresh f).ledger, (stepFresh f).outcome,
      (stepFresh f).llmCalled, (stepFresh f).rateFetched⟩ := by
  have h0 : hashPresent ([] : List Row) (fileHash f.bytes) = false := rfl
  cases hpt : f.pdfText with
  | none => simp [processFile, stepFresh, h, h0, hpt]
  | some text =>
    by_cases hg : text.data = [] ∨ (jsTrim text.data).length < 10
    · simp [processFile, stepFresh, h, h0, hpt, hg]
    · cases hmc : f.modelContent with
      | none => simp [processFile, stepFresh, h, h0, hpt, hg, hmc]
      | some content =>
        cases hp1 : parseInvoice (stripFences content.data) with
        | none => simp [processFile, stepFresh, h, h0, hpt, hg, hmc, hp1]
        | some rawInv =>
          cases hp2 : parseInvoice (jsTrim (stripFences content.data)) with
          | none => simp [processFile, stepFresh, h, h0, hpt, hg, hmc, hp1, hp2]
          | some inv => simp [processFile, stepFresh, h, h0, hpt, hg, hmc, hp1, hp2]

theorem stepFresh_inserted_ledger {f : FileEnv} {row : Row}
    (h : (stepFresh f).outcome = Outcome.inserted row) :
    (stepFresh f).ledger = [row] ∧ row.file_hash = fileHash f.bytes := by
  obtain ⟨-, content, rawInv, inv, -, -, -, hrow, hpf⟩ :=
    processFile_inserted_inv (h : (processFile [] f).outcome = Outcome.inserted row)
  constructor
  · show (processFile [] f).ledger = [row]
    rw [hpf]
    simp
  · rw [hrow]
    rfl

theorem stepFresh_failed_ledger {f : FileEnv} {m : String}
    (h : (stepFresh f).outcome = Outcome.failed m) :
    (stepFresh f).ledger = [] := by
  have h2 : (processFile [] f).outcome = Outcome.failed m := h
  rcases processFile_ledger_cases [] f with hcase | ⟨row, hled, hout⟩
  · exact hcase
  · rw [hout] at h2
    exact absurd h2 (by simp)

theorem runFiles_append (xs ys : List FileEnv) : ∀ (L : List Row) (a e : Nat)
    (ns : List Notif),
    runFiles L a e ns (xs ++ ys) =
      runFiles (runFiles L a e ns xs).1 (runFiles L a e ns xs).2.1
        (runFiles L a e ns xs).2.2.1 (runFiles L a e ns xs).2.2.2 ys := by
  induction xs with
  | nil => intro L a e ns; simp [runFiles]
  | cons f xs ih =>
    intro L a e ns
    simp only [List.cons_append, runFiles]
    cases (processFile L f).outcome with
    | skipped => exact ih _ _ _ _
    | inserted r => exact ih _ _ _ _
    | failed m => exact ih _ _ _ _

theorem runFiles_ok (fs : List FileEnv) : ∀ (L : List Row) (a e : Nat) (ns : List Notif),
    (∀ f ∈ fs, hashPresent L (fileHash f.bytes) = false) →
    fs.Pairwise (fun f g => f.bytes ≠ g.bytes) →
    (∀ f ∈ fs, ∃ row, (stepFresh f).outcome = Outcome.inserted row) →
    ∃ rows ms,
      runFiles L a e ns fs = (L ++ rows, a + fs.length, e, ns ++ ms) ∧
      rows.length = fs.length ∧
      (∀ r ∈ rows, ∃ f ∈ fs, r.file_hash = fileHash f.bytes) ∧
      errNotifCount ms = 0 := by
  induction fs with
  | nil =>
    intro L a e ns hfr hpw hok
    exact ⟨[], [], by simp [runFiles], rfl, by simp, rfl⟩
  | cons f fs ih =>
    intro L a e ns hfr hpw hok
    obtain ⟨row, hrow⟩ := hok f (by simp)
    have hf : hashPresent L (fileHash f.bytes) = false := hfr f (by simp)
    have hshift := processFile_fresh_shift L f hf
    obtain ⟨hled, hhash⟩ := stepFresh_inserted_ledger hrow
    have hout : (processFile L f).outcome = Outcome.inserted row := by
      rw [hshift]; exact hrow
    have hl2 : (processFile L f).ledger = L ++ [row] := by
      rw [hshift]; dsimp only; rw [hled]
    obtain ⟨hpwf, hpwfs⟩ := List.pairwise_cons.mp hpw
    have hfr' : ∀ g ∈ fs, hashPresent (L ++ [row]) (fileHash g.bytes) = false := by
      intro g hg
      rw [hashPresent_append]
      have h1 := hfr g (by simp [hg])
      have h2 : hashPresent [row] (fileHash g.bytes) = false := by
        simp only [hashPresent, List.any_cons, List.any_nil, Bool.or_false]
        rw [hhash]
        simpa [fileHash] using hpwf g hg
      rw [h1, h2]
      rfl
    have hok' : ∀ g ∈ fs, ∃ r2, (stepFresh g).outcome = Outcome.inserted r2 :=
      fun g hg => hok g (by simp [hg])
    obtain ⟨rows, ms, heq, hlen, hmem, herr⟩ :=
      ih (L ++ [row]) (a + 1) e (ns ++ [Notif.logged f.category row.vendor]) hfr' hpwfs hok'
    refine ⟨row :: rows, Notif.logged f.category row.vendor :: ms, ?_, by simp [hlen], ?_, ?_⟩
    · simp only [runFiles]
      rw [hout]
      dsimp only
      rw [hl2, heq]
      have h4 : L ++ [row] ++ rows = L ++ (row :: rows) := by simp
      have h5 : a + 1 + fs.length = a + (f :: fs).length := by
        simp only [List.length_cons]
        omega
      have h6 : (ns ++ [Notif.logged f.category row.vendor]) ++ ms =
          ns ++ (Notif.logged f.category row.vendor :: ms) := by simp
      rw [h4, h5, h6]
    · intro r hr
      rcases List.mem_cons.mp hr with h2 | h2
      · exact ⟨f, by simp, by rw [h2]; exact hhash⟩
      · obtain ⟨g, hg, hgh⟩ := hmem r h2
        exact ⟨g, by simp [hg], hgh⟩
    · simpa [errNotifCount] using herr

/-- C5: a batch in which exactly one file fails (all files new to the
table, pairwise distinct contents, every other file extracting
successfully) completes in full: the error counter ends at exactly 1,
one failure notification is sent, every one of the other N-1 files gets
a persisted record (the ledger grows by exactly N-1 rows), and the loop
never aborts — the remaining files after the failure are still
processed. -/
theorem batch_partial_failure (L0 : List Row) (A B : List FileEnv) (k : FileEnv)
    (hfresh : ∀ f ∈ A ++ [k] ++ B, hashPresent L0 (fileHash f.bytes) = false)
    (hdist : (A ++ [k] ++ B).Pairwise (fun f g => f.bytes ≠ g.bytes))
    (hok : ∀ f ∈ A ++ B, ∃ row, (stepFresh f).outcome = Outcome.inserted row)
    (hbad : ∃ m, (stepFresh k).outcome = Outcome.failed m) :
    (runTaxAutomation L0 (A ++ [k] ++ B)).errors = 1 ∧
    (runTaxAutomation L0 (A ++ [k] ++ B)).newlyAdded = A.length + B.length ∧
    (runTaxAutomation L0 (A ++ [k] ++ B)).ledger.length =
      L0.length + A.length + B.length ∧
    errNotifCount (runTaxAutomation L0 (A ++ [k] ++ B)).notifs = 1 := by
  obtain ⟨m, hm⟩ := hbad
  rw [List.append_assoc] at hfresh hdist ⊢
  obtain ⟨hpwA, hpwKB, hcross⟩ := List.pairwise_append.mp hdist
  obtain ⟨-, hpwB, hcrossKB⟩ := List.pairwise_append.mp hpwKB
  -- stage 1: the files before the failing one
  obtain ⟨rowsA, msA, heqA, hlenA, hmemA, herrA⟩ :=
    runFiles_ok A L0 0 0 []
      (fun f hf => hfresh f (List.mem_append_left _ hf)) hpwA
      (fun f hf => hok f (List.mem_append_left _ hf))
  -- stage 2: the failing file
  have hkfreshA : hashPresent (L0 ++ rowsA) (fileHash k.bytes) = false := by
    rw [hashPresent_append]
    have h1 := hfresh k (List.mem_append_right _ (by simp))
    have h2 : hashPresent rowsA (fileHash k.bytes) = false := by
      simp only [hashPresent, List.any_eq_false]
      intro r hr
      obtain ⟨g, hg, hgh⟩ := hmemA r hr
      rw [hgh]
      simpa [fileHash] using hcross g hg k (by simp)
    rw [h1, h2]
    rfl
  have hkshift := processFile_fresh_shift (L0 ++ rowsA) k hkfreshA
  have hkled := stepFresh_failed_ledger hm
  -- stage 3: the files after the failing one
  obtain ⟨rowsB, msB, heqB, hlenB, hmemB, herrB⟩ :=
    runFiles_ok B (L0 ++ rowsA) A.length 1
      (msA ++ [Notif.extractionError k.path m])
      (by
        intro g hg
        rw [hashPresent_append]
        have h1 := hfresh g (List.mem_append_right _ (by simp [hg]))
        have h2 : hashPresent rowsA (fileHash g.bytes) = false := by
          simp only [hashPresent, List.any_eq_false]
          intro r hr
          obtain ⟨gA, hgA, hgh⟩ := hmemA r hr
          rw [hgh]
          simpa [fileHash] using hcross gA hgA g (by simp [hg])
        rw [h1, h2]
        rfl)
      hpwB
      (fun g hg => hok g (List.mem_append_right _ hg))
  -- assemble the whole run
  have hrun : runFiles L0 0 0 [] (A ++ ([k] ++ B)) =
      (L0 ++ rowsA ++ rowsB, A.length + B.length, 1,
        msA ++ [Notif.extractionError k.path m] ++ msB) := by
    rw [runFiles_append A ([k] ++ B), heqA]
    dsimp only
    simp only [Nat.zero_add, List.nil_append]
    show runFiles (L0 ++ rowsA) A.length 0 msA (k :: B) = _
    simp only [runFiles]
    rw [hkshift]
    dsimp only
    rw [hm]
    dsimp only
    rw [hkled, List.append_nil]
    simp only [Nat.zero_add]
    rw [heqB]
  refine ⟨?_, ?_, ?_, ?_⟩
  · simp only [runTaxAutomation]
    rw [hrun]
  · simp only [runTaxAutomation]
    rw [hrun]
  · simp only [runTaxAutomation]
    rw [hrun]
    simp only [List.length_append, hlenA, hlenB]
  · simp only [runTaxAutomation]
    rw [hrun]
    dsimp only
    simp only [errNotifCount_append, herrA, herrB]
    rfl

theorem batch_partial_failure_witness :
    (runTaxAutomation [] [envGBP, envShortText, envUSDfallback]).errors = 1 ∧
    (runTaxAutomation [] [envGBP, envShortText, envUSDfallback]).newlyAdded = 2 ∧
    (runTaxAutomation [] [envGBP, envShortText, envUSDfallback]).ledger.length = 2 ∧
    errNotifCount (runTaxAutomation [] [envGBP, envShortText, envUSDfallback]).notifs = 1 :=
  batch_partial_failure [] [envGBP] [envUSDfallback] envShortText
    (fun f hf => rfl)
    (by decide)
    (by
      intro f hf
      simp only [List.mem_append, List.mem_singleton] at hf
      rcases hf with hf | hf <;> subst hf
      · exact ⟨mkRow envGBP ⟨"INV-1", "2023-04-06", "Acme", 25/2, "GBP"⟩
          ⟨"INV-1", "2023-04-06", "Acme", 25/2, "GBP"⟩, by with_unfolding_all decide⟩
      · exact ⟨mkRow envUSDfallback ⟨"INV-3", "2023-05-01", "Vendor", 100, "USD"⟩
          ⟨"INV-3", "2023-05-01", "Vendor", 100, "USD"⟩, by with_unfolding_all decide⟩)
    ⟨"PDF contains no readable text (it might be an image/scan).", by with_unfolding_all decide⟩

end TaxScan
